import Mathlib

set_option maxHeartbeats 1000000

/-!
Verification of the Acta entry store and AI session manager.

The definitions below are a shallow embedding of the two backend modules
of the repository: the record codec and entry store of
src/electron/storage.cjs, and the AI session manager of
src/electron/main.cjs.  Strings are modeled as lists of characters;
regular expressions are modeled by the deterministic matching procedures
their backtracking semantics reduce to on these patterns; the file system
and subprocess environment are modeled as explicit inputs.
-/

namespace Acta

abbrev Chars := List Char

/-- The JS whitespace class used by the regex class for whitespace and by
String.trim, restricted to the ASCII whitespace characters. -/
def isWS (c : Char) : Bool :=
  c = ' ' || c = '\t' || c = '\n' || c = '\r' || c = '\x0b' || c = '\x0c'

/-- Splits off the maximal whitespace prefix. -/
def wsSplit : Chars → Chars × Chars
  | [] => ([], [])
  | c :: cs =>
    if isWS c then
      let p := wsSplit cs
      (c :: p.1, p.2)
    else ([], c :: cs)

def trimLeft (t : Chars) : Chars := (wsSplit t).2

def trimRight (t : Chars) : Chars := (trimLeft t.reverse).reverse

def trimBoth (t : Chars) : Chars := trimRight (trimLeft t)

/-- Prefix test: the pattern is a prefix of the text. -/
def startsWithL : Chars → Chars → Bool
  | [], _ => true
  | _ :: _, [] => false
  | p :: ps, c :: cs => p = c && startsWithL ps cs

/-- Substring test: the pattern occurs contiguously in the text. -/
def occurs (pat : Chars) : Chars → Bool
  | [] => startsWithL pat []
  | c :: cs => startsWithL pat (c :: cs) || occurs pat cs

/-- Consume an exact literal from the front of the text. -/
def stripLit : Chars → Chars → Option Chars
  | [], t => some t
  | _ :: _, [] => none
  | p :: ps, c :: cs => if p = c then stripLit ps cs else none

/-- Regex fragment: a greedy whitespace star followed by a literal whose
first character is not whitespace, so the maximal run is forced. -/
def stripWSThenLit (lit t : Chars) : Option Chars := stripLit lit (wsSplit t).2

/-- The suffix after the last newline, if any newline occurs. -/
def afterLastNL : Chars → Option Chars
  | [] => none
  | c :: cs =>
    match afterLastNL cs with
    | some r => some r
    | none => if c = '\n' then some cs else none

/-- Regex fragment: whitespace star then a newline, with backtracking;
consumes the longest whitespace prefix that ends with a newline. -/
def stripWSNewline (t : Chars) : Option Chars :=
  let p := wsSplit t
  (afterLastNL p.1).map (· ++ p.2)

/-- First-occurrence split: a lazy capture group followed by the literal
pattern.  Returns the text before the first occurrence and the text after
it. -/
def splitFirst (pat : Chars) : Chars → Option (Chars × Chars)
  | [] => (stripLit pat []).map (fun r => (([] : Chars), r))
  | c :: cs =>
    match stripLit pat (c :: cs) with
    | some r => some ([], r)
    | none => (splitFirst pat cs).map (fun p => (c :: p.1, p.2))

def startLit : Chars := "<!--".data

def nameLit : Chars := "acta:comment".data

def arrowNL : Chars := "-->\n".data

def arrowLit : Chars := "-->".data

def slashName : Chars := "/acta:comment".data

/-- The end-marker regex fragment, applied at the head of the input. -/
def matchEndAt (t : Chars) : Option Chars :=
  match stripLit ['\n'] t with
  | none => none
  | some t1 =>
    match stripLit startLit t1 with
    | none => none
    | some t2 =>
      match stripWSThenLit slashName t2 with
      | none => none
      | some t3 => stripWSThenLit arrowLit t3

/-- Lazy search for the end marker: the first position where it matches,
returning the body capture before it and the rest after it. -/
def findEnd : Chars → Option (Chars × Chars)
  | [] => none
  | c :: cs =>
    match matchEndAt (c :: cs) with
    | some rest => some ([], rest)
    | none => (findEnd cs).map (fun p => (c :: p.1, p.2))

/-- One attempt of the comment-block regex at the head of the input,
returning the meta capture, the body capture, and the rest after the
closing arrow of the end marker.  On these patterns the backtracking
search of the regex engine reduces to this deterministic procedure. -/
def matchBlockAt (t : Chars) : Option (Chars × Chars × Chars) :=
  match stripLit startLit t with
  | none => none
  | some t1 =>
    match stripWSThenLit nameLit t1 with
    | none => none
    | some t2 =>
      match stripWSNewline t2 with
      | none => none
      | some t3 =>
        match splitFirst arrowNL t3 with
        | none => none
        | some (m, t4) =>
          match findEnd t4 with
          | none => none
          | some (body, rest) => some (m, body, rest)

/-- Leftmost match of the block regex: the gap before the match, the meta
and body captures, and the rest after the match. -/
def findBlock : Chars → Option (Chars × Chars × Chars × Chars)
  | [] => none
  | c :: cs =>
    match matchBlockAt (c :: cs) with
    | some (m, b, rest) => some ([], m, b, rest)
    | none => (findBlock cs).map (fun p => (c :: p.1, p.2.1, p.2.2.1, p.2.2.2))

def isWordChar (c : Char) : Bool := c.isAlphanum || c = '_'

/-- Parses one metadata header line: optional leading whitespace, a
nonempty word of letters, digits or underscores, optional whitespace, a
colon, then the value with surrounding whitespace trimmed. -/
def parseMetaLine (line : Chars) : Option (String × String) :=
  let r1 := trimLeft line
  let key := r1.takeWhile isWordChar
  let r2 := r1.dropWhile isWordChar
  if key = [] then none
  else
    match trimLeft r2 with
    | ':' :: v => some (key.asString, (trimBoth v).asString)
    | _ => none

/-- Splits on newline characters, as the JS split on a newline does. -/
def splitOnNL : Chars → List Chars
  | [] => [[]]
  | c :: cs =>
    if c = '\n' then [] :: splitOnNL cs
    else
      match splitOnNL cs with
      | [] => [[c]]
      | l :: ls => (c :: l) :: ls

/-- The metadata key and value pairs of a meta block, in line order. -/
def metaPairs (metaBlock : Chars) : List (String × String) :=
  (splitOnNL metaBlock).filterMap parseMetaLine

/-- Object-style lookup: the last line binding the key wins. -/
def metaGet (m : List (String × String)) (k : String) : Option String :=
  (m.reverse.find? (fun p => p.1 = k)).map (fun p => p.2)

/-- Lookup defaulting a missing key to the empty string, the value that
String of a nullish value coerced with a fallback produces here. -/
def metaGetD (m : List (String × String)) (k : String) : String :=
  (metaGet m k).getD ""

/-- JS falsy-or on strings: only the empty string is falsy here. -/
def orElseStr (a b : String) : String := if a = "" then b else a

/-- normalizeNewlines from storage.cjs: the two sequential global
replaces (CRLF to LF, then lone CR to LF) fused into one left-to-right
pass, which computes the same string. -/
def normalizeNewlinesL : Chars → Chars
  | [] => []
  | '\r' :: '\n' :: cs => '\n' :: normalizeNewlinesL cs
  | '\r' :: cs => '\n' :: normalizeNewlinesL cs
  | c :: cs => c :: normalizeNewlinesL cs

def normalizeNewlines (s : String) : String := (normalizeNewlinesL s.data).asString

/-- Strips one leading "#" or fullwidth "＃" tag marker. -/
def stripMarker : Chars → Chars
  | '#' :: cs => cs
  | '＃' :: cs => cs
  | cs => cs

def collapseWSAux : Bool → Chars → Chars
  | _, [] => []
  | prevWS, c :: cs =>
    if isWS c then
      if prevWS then collapseWSAux true cs
      else ' ' :: collapseWSAux true cs
    else c :: collapseWSAux false cs

/-- Regex replace of every whitespace run by a single space. -/
def collapseWS (t : Chars) : Chars := collapseWSAux false t

/-- normalizeTag from storage.cjs: strip one leading marker, collapse
whitespace runs to single spaces, trim. -/
def normalizeTag (raw : String) : String :=
  (trimBoth (collapseWS (stripMarker raw.data))).asString

/-- Splits on the half-width or full-width comma, as the tag split does. -/
def splitTagsL : Chars → List Chars
  | [] => [[]]
  | c :: cs =>
    if c = ',' || c = '、' then [] :: splitTagsL cs
    else
      match splitTagsL cs with
      | [] => [[c]]
      | l :: ls => (c :: l) :: ls

/-- JS Set spread, with the elements already seen accumulated. -/
def jsSetDedupAux (seen : List String) : List String → List String
  | [] => []
  | x :: xs => if x ∈ seen then jsSetDedupAux seen xs else x :: jsSetDedupAux (x :: seen) xs

/-- JS Set spread: deduplicate keeping first occurrences. -/
def jsSetDedup (l : List String) : List String := jsSetDedupAux [] l

/-- parseTags from storage.cjs: empty after trim gives no tags, else
split on commas, normalize, drop empties, deduplicate. -/
def parseTags (raw : String) : List String :=
  if trimBoth raw.data = [] then []
  else
    jsSetDedup
      (((splitTagsL raw.data).map (fun p => normalizeTag p.asString)).filter
        (fun t => t ≠ ""))

def dv (c : Char) : Nat := c.toNat - 48

def dv2 (a b : Char) : Nat := dv a * 10 + dv b

def dv4 (a b c d : Char) : Nat := ((dv a * 10 + dv b) * 10 + dv c) * 10 + dv d

def digitsValAux : Chars → Nat → Option Nat
  | [], acc => some acc
  | c :: cs, acc => if c.isDigit then digitsValAux cs (acc * 10 + dv c) else none

/-- The numeric value of a nonempty all-digit string. -/
def digitsVal : Chars → Option Nat
  | [] => none
  | c :: cs => digitsValAux (c :: cs) 0

/-- Models the JS Number conversion on the strings this codec reads and
writes: surrounding whitespace is ignored, the empty string is 0, an
optional sign followed by decimal digits is that integer, and anything
else is NaN, modeled as none. -/
def jsNumber (s : String) : Option Int :=
  match trimBoth s.data with
  | [] => some 0
  | '-' :: ds => (digitsVal ds).map (fun n => -(n : Int))
  | '+' :: ds => (digitsVal ds).map (fun n => (n : Int))
  | ds => (digitsVal ds).map (fun n => (n : Int))

/-- JS falsy-or for the numeric sort key: NaN (none) and 0 are falsy. -/
def jsOrMs (a : Option Int) (b : Int) : Int :=
  match a with
  | some n => if n = 0 then b else n
  | none => b

/-- Days from the Unix epoch to the first day of month m (1-based) of
year y, by the standard civil-calendar algorithm; used to model the Date
constructor. -/
def civilMonthStart (y m : Int) : Int :=
  let y2 := if m ≤ 2 then y - 1 else y
  let era := Int.fdiv y2 400
  let yoe := y2 - era * 400
  let mp := Int.emod (m + 9) 12
  let doy := Int.fdiv (153 * mp + 2) 5
  let doe := yoe * 365 + Int.fdiv yoe 4 - Int.fdiv yoe 100 + doy
  era * 146097 + doe - 719468

/-- getTime of new Date(y, mo0, d, hh, mi) with the JS month and day
overflow normalization; mo0 is 0-based as in the Date constructor, and
the local timezone is modeled as UTC. -/
def jsDateMs (y mo0 d hh mi : Int) : Int :=
  let y2 := y + Int.fdiv mo0 12
  let m2 := Int.emod mo0 12 + 1
  let days := civilMonthStart y2 m2 + (d - 1)
  ((days * 24 + hh) * 60 + mi) * 60000

/-- The anchored date-only regex of parseCreatedToMs. -/
def dateOnlyParts : Chars → Option (Nat × Nat × Nat)
  | [a, b, c, d, '-', e, f, '-', g, h] =>
    if a.isDigit && b.isDigit && c.isDigit && d.isDigit && e.isDigit && f.isDigit
        && g.isDigit && h.isDigit then
      some (dv4 a b c d, dv2 e f, dv2 g h)
    else none
  | _ => none

/-- The anchored date-time regex of parseCreatedToMs. -/
def dateTimeParts : Chars → Option (Nat × Nat × Nat × Nat × Nat)
  | [a, b, c, d, '-', e, f, '-', g, h, ' ', i, j, ':', k, l] =>
    if a.isDigit && b.isDigit && c.isDigit && d.isDigit && e.isDigit && f.isDigit
        && g.isDigit && h.isDigit && i.isDigit && j.isDigit && k.isDigit && l.isDigit then
      some (dv4 a b c d, dv2 e f, dv2 g h, dv2 i j, dv2 k l)
    else none
  | _ => none

/-- parseCreatedToMs from storage.cjs. -/
def parseCreatedToMs (created : String) : Int :=
  let s := trimBoth created.data
  if s = [] then 0
  else
    match dateOnlyParts s with
    | some (y, mo, d) => jsDateMs (y : Int) ((mo : Int) - 1) (d : Int) 0 0
    | none =>
      match dateTimeParts s with
      | some (y, mo, d, hh, mi) =>
        jsDateMs (y : Int) ((mo : Int) - 1) (d : Int) (hh : Int) (mi : Int)
      | none => 0

/-- The decoded entry record of storage.cjs. -/
structure Entry where
  id : String
  date : String
  created : String
  createdAtMs : Int
  tags : List String
  body : String
  sourceFile : String
deriving Repr, DecidableEq

/-- The suffix after the last slash, if any slash occurs. -/
def afterLastSlash : Chars → Option Chars
  | [] => none
  | c :: cs =>
    match afterLastSlash cs with
    | some r => some r
    | none => if c = '/' then some cs else none

/-- path.basename for the POSIX separator. -/
def basename (p : String) : String :=
  match afterLastSlash p.data with
  | some r => r.asString
  | none => p

/-- Builds one Entry from the captures of a block match, as the loop body
of parseEntriesFromText does. -/
def entryOfMatch (m body : Chars) (matchIndex : Nat) (date sourceFile : String) : Entry :=
  let meta := metaPairs m
  let id := orElseStr (metaGetD meta "id") (basename sourceFile ++ ":" ++ toString matchIndex)
  let created := orElseStr (metaGetD meta "created") date
  let createdAtMs :=
    jsOrMs (jsNumber (metaGetD meta "created_ms")) (jsOrMs (some (parseCreatedToMs created)) 0)
  { id := id, date := date, created := created, createdAtMs := createdAtMs,
    tags := parseTags (metaGetD meta "tags"), body := (trimRight body).asString,
    sourceFile := sourceFile }

def parseEntriesAux (date sourceFile : String) : Nat → Chars → Nat → List Entry
  | 0, _, _ => []
  | fuel + 1, t, idx =>
    match findBlock t with
    | none => []
    | some (gap, m, body, rest) =>
      entryOfMatch m body (idx + gap.length) date sourceFile ::
        parseEntriesAux date sourceFile fuel rest (idx + (t.length - rest.length))

/-- parseEntriesFromText from storage.cjs: normalize newlines, then scan
for all block matches in order. -/
def parseEntriesFromText (text date sourceFile : String) : List Entry :=
  let t := normalizeNewlinesL text.data
  parseEntriesAux date sourceFile (t.length + 1) t 0

/-- The JS array join with the comma separator used for the tag line. -/
def joinTags : List String → String
  | [] => ""
  | [t] => t
  | t :: ts => t ++ ", " ++ joinTags ts

/-- formatEntryBlock from storage.cjs. -/
def formatEntryBlock (id created : String) (createdAtMs : Int) (tags : List String)
    (body : String) : String :=
  let tagLine := joinTags ((tags.map normalizeTag).filter (fun t => t ≠ ""))
  let cleanBody := (trimRight (normalizeNewlinesL body.data)).asString
  "<!-- acta:comment\n" ++ "id: " ++ id ++ "\n" ++ "created: " ++ created ++ "\n" ++
    "created_ms: " ++ toString createdAtMs ++ "\n" ++ "tags: " ++ tagLine ++ "\n" ++
    "-->\n" ++ cleanBody ++ "\n" ++ "<!-- /acta:comment -->\n\n"

/-- Splits off the maximal run of newline characters, the trailing
newline star of the remove and update block regex. -/
def dropNLs : Chars → Chars × Chars
  | [] => ([], [])
  | c :: cs =>
    if c = '\n' then
      let p := dropNLs cs
      (c :: p.1, p.2)
    else ([], c :: cs)

def removeAux (id : String) : Nat → Chars → Bool → Chars → Bool × Chars
  | 0, t, changed, acc => (changed, acc ++ t)
  | fuel + 1, t, changed, acc =>
    match findBlock t with
    | none => (changed, acc ++ t)
    | some (gap, m, _body, rest0) =>
      let rest := (dropNLs rest0).2
      let full := (t.drop gap.length).take (t.length - gap.length - rest.length)
      if metaGetD (metaPairs m) "id" = id then removeAux id fuel rest true (acc ++ gap)
      else removeAux id fuel rest changed (acc ++ gap ++ full)

/-- removeEntryFromText from storage.cjs: normalize newlines, then copy
every gap and every block whose id differs, omitting matching blocks
together with their trailing newlines. -/
def removeEntryFromText (text id : String) : Bool × String :=
  let t := normalizeNewlinesL text.data
  let r := removeAux id (t.length + 1) t false []
  (r.1, r.2.asString)

def updateAux (id nextBody : String) (nextTags : List String) :
    Nat → Chars → Bool → Chars → Bool × Chars
  | 0, t, changed, acc => (changed, acc ++ t)
  | fuel + 1, t, changed, acc =>
    match findBlock t with
    | none => (changed, acc ++ t)
    | some (gap, m, _body, rest0) =>
      let rest := (dropNLs rest0).2
      let full := (t.drop gap.length).take (t.length - gap.length - rest.length)
      let meta := metaPairs m
      if metaGetD meta "id" = id then
        let created := metaGetD meta "created"
        let createdAtMs :=
          jsOrMs (jsNumber (metaGetD meta "created_ms"))
            (jsOrMs (some (parseCreatedToMs created)) 0)
        updateAux id nextBody nextTags fuel rest true
          (acc ++ gap ++ (formatEntryBlock id created createdAtMs nextTags nextBody).data)
      else updateAux id nextBody nextTags fuel rest changed (acc ++ gap ++ full)

/-- updateEntryInText from storage.cjs: normalize newlines, then replace
every block whose id matches by a freshly formatted block with the new
body and tags, keeping the stored created and sort key values. -/
def updateEntryInText (text id nextBody : String) (nextTags : List String) : Bool × String :=
  let t := normalizeNewlinesL text.data
  let r := updateAux id nextBody nextTags (t.length + 1) t false []
  (r.1, r.2.asString)

/-- pad2 from storage.cjs: String padStart to width two with zeros. -/
def pad2 (n : Nat) : String := if n < 10 then "0" ++ toString n else toString n

/-- The clock instant addEntry reads: the local date and time fields
(month0 is the 0-based month of getMonth) and the Date.now epoch
milliseconds. -/
structure Now where
  year : Nat
  month0 : Nat
  day : Nat
  hour : Nat
  minute : Nat
  epochMs : Int
deriving Repr, DecidableEq

def formatDate (n : Now) : String :=
  toString n.year ++ "-" ++ pad2 (n.month0 + 1) ++ "-" ++ pad2 n.day

def formatTime (n : Now) : String := pad2 n.hour ++ ":" ++ pad2 n.minute

def formatDateTime (n : Now) : String := formatDate n ++ " " ++ formatTime n

/-- The anchored day-file name regex of storage.cjs. -/
def matchesDateFile (name : String) : Bool :=
  match name.data with
  | [a, b, c, d, '-', e, f, '-', g, h, '.', 'm', 'd'] =>
    a.isDigit && b.isDigit && c.isDigit && d.isDigit && e.isDigit && f.isDigit
      && g.isDigit && h.isDigit
  | _ => false

/-- The thrown errors of the store operations. -/
inductive StoreErr where
  | emptyBody
  | invalidId
  | mkdirFailed
  | writeFailed
deriving Repr, DecidableEq

def insertStrAsc (x : String) : List String → List String
  | [] => [x]
  | y :: ys => if y ≤ x then y :: insertStrAsc x ys else x :: y :: ys

/-- The JS default array sort on file names: a stable sort ascending in
the lexicographic string order. -/
def sortStrAsc (l : List String) : List String :=
  l.foldl (fun acc x => insertStrAsc x acc) []

/-- The file-system behavior visible to one scan-based store operation:
whether directory creation is rejected, the directory listing (none
models a rejected readdir), per-file read results (none models a
rejected read), and per-file write rejection. -/
structure StoreFS where
  dir : String
  mkdirFails : Bool
  readdir : Option (List String)
  read : String → Option String
  writeFails : String → Bool

/-- The file-system behavior visible to addEntry, which touches only the
day file of the current date. -/
structure AddFS where
  dir : String
  mkdirFails : Bool
  todayExists : Bool
  todayContent : String
  writeFails : Bool
deriving Repr, DecidableEq

/-- addEntry from storage.cjs, over an explicit file system and clock:
validates the trimmed body, ensures the data directory, creates the day
file with a heading line when absent, and appends the formatted block.
Returns the new entry together with the day file name and the new file
content. -/
def addEntry (fs : AddFS) (now : Now) (freshId : String) (payloadBody : String)
    (payloadTags : List String) : Except StoreErr (Entry × String × String) :=
  let body := (trimBoth payloadBody.data).asString
  let cleanTags := jsSetDedup ((payloadTags.map normalizeTag).filter (fun t => t ≠ ""))
  if body = "" then .error .emptyBody
  else if fs.mkdirFails then .error .mkdirFailed
  else
    let date := formatDate now
    let fileName := date ++ ".md"
    let base := if fs.todayExists then fs.todayContent else "# " ++ date ++ "\n\n"
    if fs.writeFails then .error .writeFailed
    else
      let created := if fs.todayExists then formatDateTime now else date
      let entry : Entry :=
        { id := freshId, date := date, created := created,
          createdAtMs := now.epochMs, tags := cleanTags, body := body,
          sourceFile := fs.dir ++ "/" ++ fileName }
      .ok (entry, fileName, base ++ formatEntryBlock freshId created now.epochMs cleanTags body)

/-- The structured or thrown result of one store mutation. -/
inductive MutResult where
  | ok (flag : Bool)
  | err (e : StoreErr)
deriving Repr, DecidableEq

/-- A mutation outcome: its result and the single file write it
performed, if any. -/
structure MutOutcome where
  result : MutResult
  write : Option (String × String)
deriving Repr, DecidableEq

def deleteScan (fs : StoreFS) (id : String) : List String → MutOutcome
  | [] => ⟨.ok false, none⟩
  | f :: rest =>
    match fs.read f with
    | none => deleteScan fs id rest
    | some text =>
      let r := removeEntryFromText text id
      if r.1 = false then deleteScan fs id rest
      else if fs.writeFails f then ⟨.err .writeFailed, none⟩
      else ⟨.ok true, some (f, r.2)⟩

/-- deleteEntry from storage.cjs: validate the id, ensure the data
directory, return a structured false when the directory listing is
rejected, else scan the sorted day files, skipping unreadable ones, and
rewrite the first file a block was removed from. -/
def deleteEntry (fs : StoreFS) (payloadId : String) : MutOutcome :=
  let id := (trimBoth payloadId.data).asString
  if id = "" then ⟨.err .invalidId, none⟩
  else if fs.mkdirFails then ⟨.err .mkdirFailed, none⟩
  else
    match fs.readdir with
    | none => ⟨.ok false, none⟩
    | some names => deleteScan fs id (sortStrAsc (names.filter matchesDateFile))

def updateScan (fs : StoreFS) (id body : String) (cleanTags : List String) :
    List String → MutOutcome
  | [] => ⟨.ok false, none⟩
  | f :: rest =>
    match fs.read f with
    | none => updateScan fs id body cleanTags rest
    | some text =>
      let r := updateEntryInText text id body cleanTags
      if r.1 = false then updateScan fs id body cleanTags rest
      else if fs.writeFails f then ⟨.err .writeFailed, none⟩
      else ⟨.ok true, some (f, r.2)⟩

/-- updateEntry from storage.cjs: validate the id and trimmed body,
normalize and deduplicate the tags, ensure the data directory, return a
structured false when the directory listing is rejected, else scan the
sorted day files, skipping unreadable ones, and rewrite the first file a
block was replaced in. -/
def updateEntry (fs : StoreFS) (payloadId payloadBody : String)
    (payloadTags : List String) : MutOutcome :=
  let id := (trimBoth payloadId.data).asString
  let body := (trimBoth payloadBody.data).asString
  let cleanTags := jsSetDedup ((payloadTags.map normalizeTag).filter (fun t => t ≠ ""))
  if id = "" then ⟨.err .invalidId, none⟩
  else if body = "" then ⟨.err .emptyBody, none⟩
  else if fs.mkdirFails then ⟨.err .mkdirFailed, none⟩
  else
    match fs.readdir with
    | none => ⟨.ok false, none⟩
    | some names => updateScan fs id body cleanTags (sortStrAsc (names.filter matchesDateFile))

def insertByMsDesc (x : Entry) : List Entry → List Entry
  | [] => [x]
  | y :: ys => if x.createdAtMs ≤ y.createdAtMs then y :: insertByMsDesc x ys else x :: y :: ys

/-- The JS stable array sort under the comparator on createdAtMs
descending (the falsy-or with 0 in the comparator is the identity here,
since the parsed sort key is never NaN): each element is inserted after
all earlier elements with an equal or larger key. -/
def sortByMsDesc (l : List Entry) : List Entry :=
  l.foldl (fun acc x => insertByMsDesc x acc) []

/-- The entries gathered by the listEntries loop, in encounter order:
for each file, the date is the first ten characters of its name, an
unreadable file is skipped, and a readable one is decoded. -/
def gatherEntries (fs : StoreFS) : List String → List Entry
  | [] => []
  | f :: rest =>
    (match fs.read f with
     | none => []
     | some text => parseEntriesFromText text (f.data.take 10).asString (fs.dir ++ "/" ++ f)) ++
      gatherEntries fs rest

/-- The returned or thrown result of listEntries. -/
inductive ListOutcome where
  | ok (entries : List Entry)
  | err (e : StoreErr)
deriving Repr, DecidableEq

/-- listEntries from storage.cjs: ensure the data directory, return the
empty list when the directory listing is rejected, else decode the
day-pattern files in ascending name order and sort all entries by the
numeric key descending with the stable array sort. -/
def listEntries (fs : StoreFS) : ListOutcome :=
  if fs.mkdirFails then .err .mkdirFailed
  else
    match fs.readdir with
    | none => .ok []
    | some names =>
      .ok (sortByMsDesc (gatherEntries fs (sortStrAsc (names.filter matchesDateFile))))

/-- The per-session state of the AI session manager in main.cjs; the
worker field abstracts the child-process handle to its presence. -/
structure AiSession where
  id : String
  cliPath : String
  systemInstruction : String
  needsBootstrap : Bool
  codexThreadId : String
  history : List (String × String)
  chunks : List String
  alive : Bool
  busy : Bool
  hasWorker : Bool
  exitCode : Option Int
  error : String
deriving Repr, DecidableEq

/-- The errors thrown by the session operations of main.cjs, one
constructor per distinct error message. -/
inductive SessionErr where
  | invalidSessionId
  | sessionNotFound
  | sessionEnded
  | sessionBusy
  | cliPathMissing
deriving Repr, DecidableEq

/-- getAiSessionOrThrow from main.cjs, over the session registry as an
association list keyed by session id. -/
def getAiSessionOrThrow (reg : List (String × AiSession)) (id : String) :
    Except SessionErr AiSession :=
  let key := (trimBoth id.data).asString
  if key = "" then .error .invalidSessionId
  else
    match reg.find? (fun p => p.1 = key) with
    | none => .error .sessionNotFound
    | some p => .ok p.2

/-- startAiSession from main.cjs: validates the executable path and
builds the fresh session state that is stored under the fresh id. -/
def startAiSession (cliPath freshId : String) : Except SessionErr AiSession :=
  let binPath := (trimBoth cliPath.data).asString
  if binPath = "" then .error .cliPathMissing
  else
    .ok { id := freshId, cliPath := binPath, systemInstruction := "",
          needsBootstrap := true, codexThreadId := "", history := [], chunks := [],
          alive := true, busy := false, hasWorker := false, exitCode := none, error := "" }

def toLowerL (t : Chars) : Chars := t.map Char.toLower

/-- The two invocation conventions selected by detectAiCliKind. -/
inductive CliKind where
  | claude
  | codex
deriving Repr, DecidableEq

/-- detectAiCliKind from main.cjs: a lower-cased binary name containing
the claude substring selects the print convention, anything else the
structured codex convention. -/
def detectAiCliKind (cliPath : String) : CliKind :=
  if occurs "claude".data (toLowerL (basename cliPath).data) then .claude else .codex

def jsonStringAux : Nat → Chars → Chars → Option (String × Chars)
  | 0, _, _ => none
  | fuel + 1, acc, t =>
    match t with
    | '"' :: rest => some (acc.reverse.asString, rest)
    | '\\' :: c :: rest =>
      let d := if c = 'n' then '\n' else if c = 't' then '\t' else if c = 'r' then '\r' else c
      jsonStringAux fuel (d :: acc) rest
    | c :: rest => jsonStringAux fuel (c :: acc) rest
    | [] => none

def jsonMembersAux : Nat → Chars → List (String × String) → Option (List (String × String))
  | 0, _, _ => none
  | fuel + 1, t, acc =>
    match trimLeft t with
    | '"' :: r1 =>
      match jsonStringAux (r1.length + 1) [] r1 with
      | none => none
      | some (k, r2) =>
        match trimLeft r2 with
        | ':' :: r3 =>
          match trimLeft r3 with
          | '"' :: r4 =>
            match jsonStringAux (r4.length + 1) [] r4 with
            | none => none
            | some (v, r5) =>
              match trimLeft r5 with
              | ',' :: r6 => jsonMembersAux fuel r6 (acc ++ [(k, v)])
              | '}' :: r7 => if trimLeft r7 = [] then some (acc ++ [(k, v)]) else none
              | _ => none
          | _ => none
        | _ => none
    | _ => none

/-- A model of JSON.parse scoped to the newline-delimited event objects
the codex CLI emits: one flat object with string keys and string
values; other JSON shapes are modeled as a failed parse. -/
def jsonFlatParse (t : Chars) : Option (List (String × String)) :=
  match trimLeft t with
  | '{' :: r =>
    match trimLeft r with
    | '}' :: r2 => if trimLeft r2 = [] then some [] else none
    | _ => jsonMembersAux (r.length + 1) r []
  | _ => none

/-- parseJsonLine from main.cjs: trims the line, requires it to start
with an opening brace and end with a closing brace, then parses it. -/
def parseJsonLine (line : String) : Option (List (String × String)) :=
  let text := trimBoth line.data
  if text = [] then none
  else if ¬ startsWithL ['{'] text then none
  else if ¬ startsWithL ['}'] text.reverse then none
  else jsonFlatParse text

/-- JS object field access on a parsed event; a duplicated key keeps the
last binding, as JSON.parse does. -/
def jsonGet (o : List (String × String)) (k : String) : Option String :=
  (o.reverse.find? (fun p => p.1 = k)).map (fun p => p.2)

def jsonGetD (o : List (String × String)) (k : String) : String :=
  (jsonGet o k).getD ""

/-- captureCodexThreadIdFromLine from main.cjs: on a thread.started
event with a nonempty trimmed thread_id, the session resume token is
set at once. -/
def captureCodexThreadIdFromLine (s : AiSession) (line : String) : AiSession :=
  match parseJsonLine line with
  | none => s
  | some event =>
    if jsonGet event "type" = some "thread.started" then
      let tid := (trimBoth (jsonGetD event "thread_id").data).asString
      if tid = "" then s else { s with codexThreadId := tid }
    else s

/-- One stdout data event of runAiTurn in thread-id parsing mode: the
pending buffer is extended by the chunk and every complete line is
scanned, the remainder staying pending. -/
def feedStdoutChunk (sp : AiSession × Chars) (chunk : String) : AiSession × Chars :=
  let pending := sp.2 ++ chunk.data
  let lines := splitOnNL pending
  (lines.dropLast.foldl (fun s l => captureCodexThreadIdFromLine s l.asString) sp.1,
   (lines.getLast?.getD []))

/-- The session and pending-buffer state after the stdout data events of
a turn in thread-id parsing mode, in arrival order. -/
def streamState (s : AiSession) (chunks : List String) : AiSession × Chars :=
  chunks.foldl feedStdoutChunk (s, [])

/-- buildAiPrompt from main.cjs: the system instruction when present,
the last twenty history turns, and the new input, joined with the fixed
headers. -/
def buildAiPrompt (s : AiSession) (input : String) : String :=
  let recent := s.history.drop (s.history.length - 20)
  let l1 : List String :=
    if s.systemInstruction ≠ "" then ["# 事前指示", s.systemInstruction, ""] else []
  let l2 : List String :=
    if recent ≠ [] then
      "# 会話履歴" ::
        recent.flatMap (fun t => ["ユーザー: " ++ t.1, "アシスタント: " ++ t.2, ""])
    else []
  String.intercalate "\n"
    (l1 ++ l2 ++ ["# 今回のユーザー入力", input, "", "日本語で回答してください。"])

/-- The three invocation modes of the argument-selection branch of
runAiTurn. -/
inductive TurnMode where
  | claudePrint
  | codexResume
  | codexFresh
deriving Repr, DecidableEq

/-- The argument-selection branch of runAiTurn: the claude kind uses the
plain print convention, a codex session holding a resume token reuses
the remote thread, and otherwise a fresh structured turn is run, with
thread-id parsing and the scratch output file enabled. -/
def selectTurnMode (s : AiSession) : TurnMode :=
  if detectAiCliKind s.cliPath = .claude then .claudePrint
  else if s.codexThreadId ≠ "" then .codexResume
  else .codexFresh

/-- The externally determined behavior of one spawned subprocess:
whether the spawn fails and with what message, the stdout chunks in
arrival order, the accumulated stderr, the code passed to the close
event (none models a null code), and the content the scratch output
file holds at close (empty when it is missing). -/
structure ProcBehavior where
  spawnFails : Bool
  spawnErrMsg : String
  stdoutChunks : List String
  stderr : String
  exitCode : Option Int
  outFile : String
deriving Repr, DecidableEq

/-- The state of runAiTurn just after spawn: busy, error fields reset,
worker attached. -/
def turnStart (s : AiSession) : AiSession :=
  { s with busy := true, exitCode := none, error := "", hasWorker := true }

/-- The spawn-error handler of runAiTurn. -/
def turnSpawnError (s : AiSession) (msg : String) : AiSession :=
  let m := if msg = "" then "実行に失敗しました" else msg
  { s with
    error := m
    chunks := s.chunks ++ ["\n[エラー] " ++ m ++ "\n"]
    busy := false
    exitCode := some 1
    hasWorker := false }

def exitCodeText : Option Int → String
  | none => "?"
  | some n => toString n

/-- The answer a closing turn reads: the trimmed scratch-file content in
fresh codex mode, the trimmed captured stdout otherwise. -/
def turnAnswer (mode : TurnMode) (beh : ProcBehavior) : String :=
  if mode = .codexFresh then (trimBoth beh.outFile.data).asString
  else (trimBoth (String.join beh.stdoutChunks).data).asString

/-- The close handler of runAiTurn: flush the pending stream buffer in
thread-id parsing mode, read the answer from the scratch file or from
the captured stdout, record the exit code and clear busy, then either
commit the turn to history and the output queue, or, on a non-zero exit
or an empty answer, clear the codex resume token and queue the
diagnostic output. -/
def turnClose (s : AiSession) (input : String) (mode : TurnMode) (beh : ProcBehavior) :
    AiSession :=
  let stdoutText := String.join beh.stdoutChunks
  let s1 :=
    if mode = .codexFresh then
      let st := streamState s beh.stdoutChunks
      if st.2 ≠ [] then captureCodexThreadIdFromLine st.1 st.2.asString else st.1
    else s
  let answer := turnAnswer mode beh
  let s2 := { s1 with exitCode := beh.exitCode, busy := false, hasWorker := false }
  if ¬ s2.alive then s2
  else if beh.exitCode = some 0 ∧ answer ≠ "" then
    { s2 with
      history := s2.history ++ [(input, answer)]
      chunks := s2.chunks ++ [answer ++ "\n"] }
  else
    let s3 :=
      if detectAiCliKind s.cliPath = .codex then { s2 with codexThreadId := "" } else s2
    let fallback :=
      orElseStr answer
        (orElseStr (trimBoth beh.stderr.data).asString (trimBoth stdoutText.data).asString)
    let s4 :=
      if fallback ≠ "" then
        { s3 with chunks := s3.chunks ++ ["\n[実行ログ]\n" ++ fallback ++ "\n"] }
      else s3
    if beh.exitCode ≠ some 0 then
      { s4 with chunks := s4.chunks ++ ["\n[AI実行失敗: code=" ++ exitCodeText beh.exitCode ++ "]\n"] }
    else s4

/-- runAiTurn from main.cjs over an explicit subprocess behavior: set
busy and spawn, then run either the spawn-error handler or the stream
and close handlers. -/
def runAiTurn (s : AiSession) (input : String) (beh : ProcBehavior) : AiSession :=
  let s0 := turnStart s
  if beh.spawnFails then turnSpawnError s0 beh.spawnErrMsg
  else turnClose s0 input (selectTurnMode s) beh

/-- The structured or thrown result of one send call. -/
inductive SendResult where
  | sent (flag : Bool)
  | err (e : SessionErr)
deriving Repr, DecidableEq

/-- A send outcome: the result, the new state of the addressed session
when the call got that far, and whether a subprocess turn was started. -/
structure SendOutcome where
  result : SendResult
  session : Option AiSession
  ranTurn : Bool
deriving Repr, DecidableEq

/-- writeAiSessionInput from main.cjs: look up the session, reject a
dead or busy one, accept-and-ignore whitespace-only input, consume the
bootstrap turn by storing the input verbatim as the system instruction,
and otherwise run a subprocess turn. -/
def writeAiSessionInput (reg : List (String × AiSession)) (sessionId input : String)
    (beh : ProcBehavior) : SendOutcome :=
  match getAiSessionOrThrow reg sessionId with
  | .error e => ⟨.err e, none, false⟩
  | .ok s =>
    if ¬ s.alive then ⟨.err .sessionEnded, some s, false⟩
    else if s.busy then ⟨.err .sessionBusy, some s, false⟩
    else if (trimBoth input.data).asString = "" then ⟨.sent false, some s, false⟩
    else if s.needsBootstrap then
      ⟨.sent true, some { s with systemInstruction := input, needsBootstrap := false }, false⟩
    else ⟨.sent true, some (runAiTurn s input beh), true⟩

/-- stopAiSession from main.cjs: the session, looked up with the same
validation, is removed from the registry (its flags are also lowered
and its worker signaled, which is unobservable after removal). -/
def stopAiSession (reg : List (String × AiSession)) (sessionId : String) :
    Except SessionErr (List (String × AiSession)) :=
  match getAiSessionOrThrow reg sessionId with
  | .error e => .error e
  | .ok s => .ok (reg.filter (fun p => p.1 ≠ s.id))

/-- The snapshot readAiSession returns. -/
structure ReadResult where
  chunk : String
  alive : Bool
  busy : Bool
  exitCode : Option Int
  error : Option String
deriving Repr, DecidableEq

/-- readAiSession from main.cjs: drain the chunk queue into one string
and snapshot the flags; the error field is omitted when empty. -/
def readAiSession (s : AiSession) : ReadResult × AiSession :=
  ({ chunk := String.join s.chunks, alive := s.alive, busy := s.busy,
     exitCode := s.exitCode, error := if s.error = "" then none else some s.error },
   { s with chunks := [] })

/-- A subprocess behavior with no output, used for concrete instances. -/
def behNull : ProcBehavior :=
  { spawnFails := false, spawnErrMsg := "", stdoutChunks := [], stderr := "",
    exitCode := some 0, outFile := "" }

/-- Scanning one line changes at most the resume token. -/
theorem capture_eq_set (s : AiSession) (l : String) :
    ∃ tid : String, captureCodexThreadIdFromLine s l = { s with codexThreadId := tid } := by
  unfold captureCodexThreadIdFromLine
  cases parseJsonLine l with
  | none => exact ⟨s.codexThreadId, rfl⟩
  | some ev =>
    dsimp only
    split
    · split
      · exact ⟨s.codexThreadId, rfl⟩
      · exact ⟨_, rfl⟩
    · exact ⟨s.codexThreadId, rfl⟩

/-- Scanning a list of lines changes at most the resume token. -/
theorem foldCapture_eq_set (ls : List Chars) (s : AiSession) :
    ∃ tid : String,
      ls.foldl (fun a l => captureCodexThreadIdFromLine a l.asString) s
        = { s with codexThreadId := tid } := by
  induction ls generalizing s with
  | nil => exact ⟨s.codexThreadId, rfl⟩
  | cons l ls ih =>
    obtain ⟨t1, h1⟩ := capture_eq_set s l.asString
    obtain ⟨t2, h2⟩ := ih { s with codexThreadId := t1 }
    refine ⟨t2, ?_⟩
    rw [List.foldl_cons, h1, h2]

/-- The stream processing of a turn changes at most the resume token. -/
theorem streamState_eq_set (cs : List String) (s : AiSession) (p : Chars) :
    ∃ tid : String,
      (cs.foldl feedStdoutChunk (s, p)).1 = { s with codexThreadId := tid } := by
  induction cs generalizing s p with
  | nil => exact ⟨s.codexThreadId, rfl⟩
  | cons c cs ih =>
    rw [List.foldl_cons]
    obtain ⟨t1, h1⟩ := foldCapture_eq_set (splitOnNL (p ++ c.data)).dropLast s
    obtain ⟨t2, h2⟩ :=
      ih { s with codexThreadId := t1 } ((splitOnNL (p ++ c.data)).getLast?.getD [])
    refine ⟨t2, ?_⟩
    have hf : feedStdoutChunk (s, p) c
        = ({ s with codexThreadId := t1 }, (splitOnNL (p ++ c.data)).getLast?.getD []) := by
      unfold feedStdoutChunk
      dsimp only
      rw [h1]
    rw [hf, h2]

theorem streamState_fst (cs : List String) (s : AiSession) :
    ∃ tid : String, (streamState s cs).1 = { s with codexThreadId := tid } :=
  streamState_eq_set cs s []

/-- On a completed turn that fails (non-zero exit or empty answer) in a
live codex-kind session, the close handler clears the resume token and
leaves the executable path unchanged. -/
theorem turnClose_fail (s : AiSession) (input : String) (mode : TurnMode)
    (beh : ProcBehavior) (halive : s.alive = true)
    (hkind : detectAiCliKind s.cliPath = CliKind.codex)
    (hfail : ¬ (beh.exitCode = some 0 ∧ turnAnswer mode beh ≠ "")) :
    (turnClose s input mode beh).codexThreadId = ""
      ∧ (turnClose s input mode beh).cliPath = s.cliPath := by
  obtain ⟨tid, hs1⟩ : ∃ tid : String,
      (if mode = TurnMode.codexFresh then
        (let st := streamState s beh.stdoutChunks
         if st.2 ≠ [] then captureCodexThreadIdFromLine st.1 st.2.asString else st.1)
       else s) = { s with codexThreadId := tid } := by
    split
    · dsimp only
      split
      · obtain ⟨t1, h1⟩ := streamState_fst beh.stdoutChunks s
        obtain ⟨t2, h2⟩ := capture_eq_set (streamState s beh.stdoutChunks).1
          (streamState s beh.stdoutChunks).2.asString
        exact ⟨t2, by rw [h2, h1]⟩
      · exact streamState_fst beh.stdoutChunks s
    · exact ⟨s.codexThreadId, rfl⟩
  unfold turnClose
  dsimp only
  rw [hs1, if_neg (by simp [halive]), if_neg hfail, if_pos hkind]
  split
  · split
    · exact ⟨rfl, rfl⟩
    · exact ⟨rfl, rfl⟩
  · split
    · exact ⟨rfl, rfl⟩
    · exact ⟨rfl, rfl⟩

/-- A failing completed turn on a live codex-kind session ends with the
resume token cleared, so the next turn selects the fresh, non-resume
invocation mode. -/
theorem runAiTurn_fail_clears (s : AiSession) (input : String) (beh : ProcBehavior)
    (halive : s.alive = true) (hkind : detectAiCliKind s.cliPath = CliKind.codex)
    (hspawn : beh.spawnFails = false)
    (hfail : ¬ (beh.exitCode = some 0 ∧ turnAnswer (selectTurnMode s) beh ≠ "")) :
    (runAiTurn s input beh).codexThreadId = ""
      ∧ selectTurnMode (runAiTurn s input beh) = TurnMode.codexFresh := by
  have hrun : runAiTurn s input beh = turnClose (turnStart s) input (selectTurnMode s) beh := by
    unfold runAiTurn
    dsimp only
    rw [if_neg (by simp [hspawn])]
  have h := turnClose_fail (turnStart s) input (selectTurnMode s) beh halive hkind hfail
  refine ⟨by rw [hrun]; exact h.1, ?_⟩
  rw [hrun]
  generalize hm : selectTurnMode s = m at h
  have hq : (turnStart s).cliPath = s.cliPath := rfl
  rw [hq] at h
  unfold selectTurnMode
  rw [h.1, h.2, hkind]
  simp

/-- A live, bootstrapped codex-kind session with no resume token. -/
def sessionFresh : AiSession :=
  { id := "S1", cliPath := "/opt/homebrew/bin/codex", systemInstruction := "sys",
    needsBootstrap := false, codexThreadId := "", history := [], chunks := [],
    alive := true, busy := false, hasWorker := false, exitCode := none, error := "" }

/-- The same session holding a resume token from an earlier turn. -/
def sessionResume : AiSession := { sessionFresh with codexThreadId := "OLD" }

/-- A complete thread.started event line as the codex CLI emits it. -/
def threadLine : String := "\x7b\"type\":\"thread.started\",\"thread_id\":\"T1\"\x7d"

def threadEvent : List (String × String) := [("type", "thread.started"), ("thread_id", "T1")]

def behFailTurn : ProcBehavior := { behNull with exitCode := some 1 }

def behSpawnFail : ProcBehavior := { behNull with spawnFails := true, spawnErrMsg := "missing" }

/-- C9 counterexample: after the stdout data event that carries the
thread.started line, and before the close event, the session already
holds the new thread identifier as its resume token while the turn is
still running, refuting commitment only at successful completion and
never mid-stream. -/
theorem claim_c9_counterexample :
    (streamState (turnStart sessionFresh) [threadLine ++ "\n"]).1.codexThreadId = "T1"
      ∧ (streamState (turnStart sessionFresh) [threadLine ++ "\n"]).1.busy = true := by
  constructor
  · rfl
  · rfl

/-- C9 (amended): a thread identifier parsed from the streamed JSON
output is committed to the session immediately when the thread.started
event is scanned, mid-stream; every turn of a live codex-kind session
that completes through the close event with a non-zero exit code or an
empty answer clears the resume token, so the next turn selects the
fresh non-resume invocation mode; a turn whose spawn itself fails
leaves the resume token unchanged. -/
theorem claim_c9 :
    (∀ (s : AiSession) (line : String) (ev : List (String × String)),
        parseJsonLine line = some ev →
        jsonGet ev "type" = some "thread.started" →
        (trimBoth (jsonGetD ev "thread_id").data).asString ≠ "" →
        captureCodexThreadIdFromLine s line
          = { s with codexThreadId := (trimBoth (jsonGetD ev "thread_id").data).asString })
    ∧ (∀ (s : AiSession) (input : String) (beh : ProcBehavior),
        s.alive = true → detectAiCliKind s.cliPath = CliKind.codex →
        beh.spawnFails = false →
        ¬ (beh.exitCode = some 0 ∧ turnAnswer (selectTurnMode s) beh ≠ "") →
        (runAiTurn s input beh).codexThreadId = ""
          ∧ selectTurnMode (runAiTurn s input beh) = TurnMode.codexFresh)
    ∧ (∀ (s : AiSession) (input : String) (beh : ProcBehavior),
        beh.spawnFails = true →
        (runAiTurn s input beh).codexThreadId = s.codexThreadId) := by
  refine ⟨?_, ?_, ?_⟩
  · intro s line ev hp ht hne
    unfold captureCodexThreadIdFromLine
    rw [hp]
    dsimp only
    rw [if_pos ht, if_neg hne]
  · intro s input beh h1 h2 h3 h4
    exact runAiTurn_fail_clears s input beh h1 h2 h3 h4
  · intro s input beh h
    unfold runAiTurn
    dsimp only
    rw [if_pos (by simp [h])]
    rfl

/-- Witness for C9 at concrete inputs: the event line commits T1 at
once; a failing completed resume turn clears the token and the next
mode is fresh; a spawn-failure turn keeps the old token. -/
theorem claim_c9_witness :
    captureCodexThreadIdFromLine sessionFresh threadLine
        = { sessionFresh with codexThreadId := "T1" }
      ∧ ((runAiTurn sessionResume "x" behFailTurn).codexThreadId = ""
          ∧ selectTurnMode (runAiTurn sessionResume "x" behFailTurn) = TurnMode.codexFresh)
      ∧ (runAiTurn sessionResume "x" behSpawnFail).codexThreadId = sessionResume.codexThreadId :=
  ⟨claim_c9.1 sessionFresh threadLine threadEvent (by decide) (by decide) (by decide),
   claim_c9.2.1 sessionResume "x" behFailTurn (by decide) (by decide) (by decide) (by decide),
   claim_c9.2.2 sessionResume "x" behSpawnFail (by decide)⟩

/-- C8 counterexample: a whitespace-only handle is not in the (empty)
registry, yet send fails with the invalid-session-id error, not with
the session-not-found error the claim names. -/
theorem claim_c8_counterexample :
    (writeAiSessionInput [] " " "x" behNull).result
        = SendResult.err SessionErr.invalidSessionId
      ∧ SendResult.err SessionErr.invalidSessionId
          ≠ SendResult.err SessionErr.sessionNotFound := by
  decide

/-- C8 (amended): send fails with the invalid-session-id error when the
trimmed handle is empty; with session-not-found when the nonempty
trimmed handle is not in the registry; with session-ended when the
session is not alive; and with session-busy when it is busy — in each
case no turn is started, and in the busy case the session is left
unchanged, so no second turn is queued. -/
theorem claim_c8 (reg : List (String × AiSession)) (sid input : String) (beh : ProcBehavior) :
    ((trimBoth sid.data).asString = "" →
        writeAiSessionInput reg sid input beh
          = ⟨SendResult.err SessionErr.invalidSessionId, none, false⟩)
    ∧ ((trimBoth sid.data).asString ≠ "" →
        reg.find? (fun p => p.1 = (trimBoth sid.data).asString) = none →
        writeAiSessionInput reg sid input beh
          = ⟨SendResult.err SessionErr.sessionNotFound, none, false⟩)
    ∧ (∀ k s, reg.find? (fun p => p.1 = (trimBoth sid.data).asString) = some (k, s) →
        (trimBoth sid.data).asString ≠ "" →
        (s.alive = false →
            writeAiSessionInput reg sid input beh
              = ⟨SendResult.err SessionErr.sessionEnded, some s, false⟩)
          ∧ (s.alive = true → s.busy = true →
              writeAiSessionInput reg sid input beh
                = ⟨SendResult.err SessionErr.sessionBusy, some s, false⟩)) := by
  refine ⟨?_, ?_, ?_⟩
  · intro h
    unfold writeAiSessionInput getAiSessionOrThrow
    rw [if_pos h]
  · intro h hfind
    unfold writeAiSessionInput getAiSessionOrThrow
    rw [if_neg h, hfind]
  · intro k s hfind hne
    constructor
    · intro hdead
      unfold writeAiSessionInput getAiSessionOrThrow
      rw [if_neg hne, hfind]
      dsimp only
      rw [if_pos (by simp [hdead])]
    · intro halive hbusy
      unfold writeAiSessionInput getAiSessionOrThrow
      rw [if_neg hne, hfind]
      dsimp only
      rw [if_neg (by simp [halive]), if_pos (by simp [hbusy])]

/-- Witness for C8 at concrete inputs: all four failure shapes. -/
theorem claim_c8_witness :
    (writeAiSessionInput [("S1", sessionFresh)] "" "x" behNull
        = ⟨SendResult.err SessionErr.invalidSessionId, none, false⟩)
      ∧ (writeAiSessionInput [("S1", sessionFresh)] "S2" "x" behNull
          = ⟨SendResult.err SessionErr.sessionNotFound, none, false⟩)
      ∧ (writeAiSessionInput [("S1", { sessionFresh with alive := false })] "S1" "x" behNull
          = ⟨SendResult.err SessionErr.sessionEnded,
              some { sessionFresh with alive := false }, false⟩)
      ∧ (writeAiSessionInput [("S1", { sessionFresh with busy := true })] "S1" "x" behNull
          = ⟨SendResult.err SessionErr.sessionBusy,
              some { sessionFresh with busy := true }, false⟩) :=
  ⟨(claim_c8 [("S1", sessionFresh)] "" "x" behNull).1 (by decide),
   (claim_c8 [("S1", sessionFresh)] "S2" "x" behNull).2.1 (by decide) (by decide),
   ((claim_c8 [("S1", { sessionFresh with alive := false })] "S1" "x" behNull).2.2
      "S1" { sessionFresh with alive := false } (by decide) (by decide)).1 (by decide),
   ((claim_c8 [("S1", { sessionFresh with busy := true })] "S1" "x" behNull).2.2
      "S1" { sessionFresh with busy := true } (by decide) (by decide)).2 (by decide) (by decide)⟩

/-- C7: a session fresh from start has the bootstrap flag set, and the
first send with non-empty input stores that input verbatim as the
system instruction, clears the flag, reports sent, and starts no
subprocess turn; a subsequent send on the bootstrapped session does
start one. -/
theorem claim_c7 (cliPath freshId input input2 : String) (beh beh2 : ProcBehavior)
    (s : AiSession) (hstart : startAiSession cliPath freshId = .ok s)
    (hkey : (trimBoth freshId.data).asString = freshId) (hne : freshId ≠ "")
    (hinput : (trimBoth input.data).asString ≠ "")
    (hinput2 : (trimBoth input2.data).asString ≠ "") :
    writeAiSessionInput [(freshId, s)] freshId input beh
        = ⟨SendResult.sent true,
            some { s with systemInstruction := input, needsBootstrap := false }, false⟩
      ∧ (writeAiSessionInput
            [(freshId, { s with systemInstruction := input, needsBootstrap := false })]
            freshId input2 beh2).ranTurn = true := by
  unfold startAiSession at hstart
  have hs : s =
      { id := freshId, cliPath := (trimBoth cliPath.data).asString,
        systemInstruction := "", needsBootstrap := true, codexThreadId := "", history := [],
        chunks := [], alive := true, busy := false, hasWorker := false, exitCode := none,
        error := "" } := by
    by_cases hb : (trimBoth cliPath.data).asString = ""
    · rw [if_pos hb] at hstart
      exact absurd hstart (by simp)
    · rw [if_neg hb] at hstart
      cases hstart
      rfl
  subst hs
  have hfind : ∀ u : AiSession, ([(freshId, u)].find? (fun p => p.1 = freshId)) = some (freshId, u) := by
    intro u
    simp [List.find?]
  constructor
  · unfold writeAiSessionInput getAiSessionOrThrow
    rw [hkey, if_neg hne, hfind]
    dsimp only
    rw [if_neg (by simp), if_neg (by simp), if_neg hinput, if_pos (by simp)]
  · unfold writeAiSessionInput getAiSessionOrThrow
    rw [hkey, if_neg hne, hfind]
    dsimp only
    rw [if_neg (by simp), if_neg (by simp), if_neg hinput2, if_neg (by simp)]

/-- The session startAiSession builds for the default codex path. -/
def bootstrapSession : AiSession :=
  { id := "S1", cliPath := "/opt/homebrew/bin/codex", systemInstruction := "",
    needsBootstrap := true, codexThreadId := "", history := [], chunks := [],
    alive := true, busy := false, hasWorker := false, exitCode := none, error := "" }

/-- Witness for C7 at concrete inputs. -/
theorem claim_c7_witness :
    writeAiSessionInput [("S1", bootstrapSession)] "S1" "be concise" behNull
        = ⟨SendResult.sent true,
            some { bootstrapSession with
                     systemInstruction := "be concise", needsBootstrap := false }, false⟩
      ∧ (writeAiSessionInput
            [("S1", { bootstrapSession with
                        systemInstruction := "be concise", needsBootstrap := false })]
            "S1" "hello" behNull).ranTurn = true :=
  claim_c7 "/opt/homebrew/bin/codex" "S1" "be concise" "hello" behNull behNull
    bootstrapSession rfl (by decide) (by decide) (by decide) (by decide)

/-- C10: on a live, non-busy session, whitespace-only input yields a
sent-false result, starts no turn, and leaves the session unchanged, so
the bootstrap flag and system instruction are untouched. -/
theorem claim_c10 (reg : List (String × AiSession)) (sid input : String) (beh : ProcBehavior)
    (k : String) (s : AiSession)
    (hne : (trimBoth sid.data).asString ≠ "")
    (hfind : reg.find? (fun p => p.1 = (trimBoth sid.data).asString) = some (k, s))
    (halive : s.alive = true) (hbusy : s.busy = false)
    (hempty : (trimBoth input.data).asString = "") :
    writeAiSessionInput reg sid input beh = ⟨SendResult.sent false, some s, false⟩ := by
  unfold writeAiSessionInput getAiSessionOrThrow
  rw [if_neg hne, hfind]
  dsimp only
  rw [if_neg (by simp [halive]), if_neg (by simp [hbusy]), if_pos hempty]

/-- Witness for C10 at concrete inputs. -/
theorem claim_c10_witness :
    writeAiSessionInput [("S1", bootstrapSession)] "S1" "  \t " behNull
      = ⟨SendResult.sent false, some bootstrapSession, false⟩ :=
  claim_c10 [("S1", bootstrapSession)] "S1" "  \t " behNull "S1" bootstrapSession
    (by decide) (by decide) (by decide) (by decide) (by decide)

theorem stripLit_eq : ∀ {lit t r : Chars}, stripLit lit t = some r → t = lit ++ r
  | [], t, r, h => by
    simp only [stripLit, Option.some.injEq] at h
    simp [h]
  | p :: ps, [], r, h => by simp [stripLit] at h
  | p :: ps, c :: cs, r, h => by
    simp only [stripLit] at h
    split at h
    · next heq => simpa [heq] using stripLit_eq h
    · exact absurd h (by simp)

theorem stripLit_append (lit r : Chars) : stripLit lit (lit ++ r) = some r := by
  induction lit with
  | nil => rfl
  | cons p ps ih => simp [stripLit, ih]

theorem wsSplit_eq : ∀ t : Chars, t = (wsSplit t).1 ++ (wsSplit t).2
  | [] => rfl
  | c :: cs => by
    simp only [wsSplit]
    split
    · simpa using wsSplit_eq cs
    · simp

theorem afterLastNL_eq : ∀ {a r : Chars}, afterLastNL a = some r → ∃ pre, a = pre ++ '\n' :: r
  | [], r, h => by simp [afterLastNL] at h
  | c :: cs, r, h => by
    simp only [afterLastNL] at h
    split at h
    · next r2 hc =>
      cases h
      obtain ⟨pre, hp⟩ := afterLastNL_eq hc
      exact ⟨c :: pre, by simp [hp]⟩
    · next hc =>
      split at h
      · next hcn =>
        cases h
        exact ⟨[], by simp [hcn]⟩
      · exact absurd h (by simp)

theorem stripWSNewline_decomp {t r : Chars} (h : stripWSNewline t = some r) :
    ∃ pre, t = pre ++ r := by
  have hd : stripWSNewline t
      = (afterLastNL (wsSplit t).1).map (fun x => x ++ (wsSplit t).2) := rfl
  rw [hd] at h
  cases ha : afterLastNL (wsSplit t).1 with
  | none => rw [ha] at h; exact absurd h (by simp)
  | some r0 =>
    rw [ha] at h
    obtain ⟨pre, hp⟩ := afterLastNL_eq ha
    simp only [Option.map_some', Option.some.injEq] at h
    refine ⟨pre ++ ['\n'], ?_⟩
    have hw := wsSplit_eq t
    rw [hp] at hw
    rw [hw, ← h]
    simp

theorem splitFirst_decomp : ∀ {pat t a b : Chars}, splitFirst pat t = some (a, b) →
    t = a ++ pat ++ b
  | pat, [], a, b, h => by
    simp only [splitFirst] at h
    cases hs : stripLit pat [] with
    | none => rw [hs] at h; exact absurd h (by simp)
    | some r =>
      rw [hs] at h
      simp only [Option.map_some', Option.some.injEq, Prod.mk.injEq] at h
      obtain ⟨h1, h2⟩ := h
      have he := stripLit_eq hs
      rw [← h1, ← h2]
      simp only [List.nil_append]
      exact he
  | pat, c :: cs, a, b, h => by
    simp only [splitFirst] at h
    split at h
    · next r hs =>
      cases h
      simpa using stripLit_eq hs
    · next hs =>
      cases hs2 : splitFirst pat cs with
      | none => rw [hs2] at h; exact absurd h (by simp)
      | some p =>
        rw [hs2] at h
        simp only [Option.map_some', Option.some.injEq, Prod.mk.injEq] at h
        obtain ⟨h1, h2⟩ := h
        have hrec := @splitFirst_decomp pat cs p.1 p.2 hs2
        rw [← h1, ← h2, hrec]
        simp

theorem matchEndAt_decomp {t r : Chars} (h : matchEndAt t = some r) :
    ∃ pre, t = pre ++ r ∧ pre ≠ [] := by
  unfold matchEndAt at h
  split at h
  · exact absurd h (by simp)
  · next t1 h1 =>
    split at h
    · exact absurd h (by simp)
    · next t2 h2 =>
      split at h
      · exact absurd h (by simp)
      · next t3 h3 =>
        unfold stripWSThenLit at h3 h
        have e1 := stripLit_eq h1
        have e2 := stripLit_eq h2
        have e3 := stripLit_eq h3
        have e4 := stripLit_eq h
        refine ⟨['\n'] ++ startLit ++ (wsSplit t2).1 ++ slashName ++ (wsSplit t3).1 ++ arrowLit,
          ?_, by simp⟩
        rw [e1, e2]
        conv_lhs => rw [wsSplit_eq t2]
        rw [e3]
        conv_lhs => rw [wsSplit_eq t3]
        rw [e4]
        simp

theorem findEnd_decomp : ∀ {t b r : Chars}, findEnd t = some (b, r) →
    ∃ mid, t = b ++ mid ++ r ∧ mid ≠ []
  | [], b, r, h => by simp [findEnd] at h
  | c :: cs, b, r, h => by
    simp only [findEnd] at h
    split at h
    · next rest hm =>
      cases h
      obtain ⟨pre, hp, hne⟩ := matchEndAt_decomp hm
      exact ⟨pre, by simpa using hp, hne⟩
    · next hm =>
      cases hf : findEnd cs with
      | none => rw [hf] at h; exact absurd h (by simp)
      | some p =>
        rw [hf] at h
        simp only [Option.map_some', Option.some.injEq, Prod.mk.injEq] at h
        obtain ⟨h1, h2⟩ := h
        obtain ⟨mid, hp, hne⟩ := findEnd_decomp (t := cs) (b := p.1) (r := p.2) hf
        refine ⟨mid, ?_, hne⟩
        rw [← h1, ← h2, hp]
        simp

theorem matchBlockAt_decomp {t m b rest : Chars} (h : matchBlockAt t = some (m, b, rest)) :
    ∃ pre, t = pre ++ rest ∧ pre ≠ [] := by
  unfold matchBlockAt at h
  split at h
  · exact absurd h (by simp)
  · next t1 h1 =>
    split at h
    · exact absurd h (by simp)
    · next t2 h2 =>
      split at h
      · exact absurd h (by simp)
      · next t3 h3 =>
        split at h
        · exact absurd h (by simp)
        · next m4 t4 h4 =>
          split at h
          · exact absurd h (by simp)
          · next body5 rest5 h5 =>
            cases h
            have e1 := stripLit_eq h1
            unfold stripWSThenLit at h2
            have e2 := stripLit_eq h2
            obtain ⟨pre3, e3⟩ := stripWSNewline_decomp h3
            have e4 := splitFirst_decomp h4
            obtain ⟨mid5, e5, _⟩ := findEnd_decomp h5
            refine ⟨startLit ++ (wsSplit t1).1 ++ nameLit ++ pre3 ++ m ++ arrowNL
              ++ b ++ mid5, ?_, by simp [startLit]⟩
            rw [e1]
            conv_lhs => rw [wsSplit_eq t1]
            rw [e2, e3, e4, e5]
            simp

theorem findBlock_decomp : ∀ {t g m b rest : Chars}, findBlock t = some (g, m, b, rest) →
    ∃ mid, t = g ++ mid ++ rest ∧ mid ≠ []
  | [], g, m, b, rest, h => by simp [findBlock] at h
  | c :: cs, g, m, b, rest, h => by
    simp only [findBlock] at h
    split at h
    · next m2 b2 rest2 hm =>
      cases h
      obtain ⟨pre, hp, hne⟩ := matchBlockAt_decomp hm
      exact ⟨pre, by simpa using hp, hne⟩
    · next hm =>
      cases hf : findBlock cs with
      | none => rw [hf] at h; exact absurd h (by simp)
      | some p =>
        rw [hf] at h
        simp only [Option.map_some', Option.some.injEq, Prod.mk.injEq] at h
        obtain ⟨h1, h2, h3, h4⟩ := h
        obtain ⟨mid, hp, hne⟩ := @findBlock_decomp cs p.1 p.2.1 p.2.2.1 p.2.2.2 hf
        refine ⟨mid, ?_, hne⟩
        rw [← h1, ← h4, hp]
        simp

theorem dropNLs_eq : ∀ t : Chars, t = (dropNLs t).1 ++ (dropNLs t).2
  | [] => rfl
  | c :: cs => by
    simp only [dropNLs]
    split
    · simpa using dropNLs_eq cs
    · simp

theorem normalizeNewlinesL_no_cr (t : Chars) : '\r' ∉ normalizeNewlinesL t := by
  induction t using normalizeNewlinesL.induct with
  | case1 => simp [normalizeNewlinesL]
  | case2 cs ih =>
    rw [show normalizeNewlinesL ('\r' :: '\n' :: cs) = '\n' :: normalizeNewlinesL cs from rfl]
    simp only [List.mem_cons]
    rintro (h | h)
    · exact absurd h (by decide)
    · exact ih h
  | case3 cs hne ih =>
    rw [normalizeNewlinesL.eq_def]
    split
    · next heq => exact absurd heq (by simp)
    · next cs2 heq =>
      injection heq with _ h2
      exact (hne cs2 h2).elim
    · next cs2 heq =>
      injection heq with _ h2
      subst h2
      simp only [List.mem_cons]
      rintro (h | h)
      · exact absurd h (by decide)
      · exact ih h
    · next c2 cs2 _ hb heq =>
      injection heq with h1 _
      exact (hb h1.symm).elim
  | case4 c cs _ hne ih =>
    rw [normalizeNewlinesL.eq_def]
    split
    · next heq => exact absurd heq (by simp)
    · next cs2 heq =>
      injection heq with h1 _
      exact (hne h1).elim
    · next cs2 heq =>
      injection heq with h1 _
      exact (hne h1).elim
    · next c2 cs2 _ _ heq =>
      injection heq with h1 h2
      subst h1
      subst h2
      simp only [List.mem_cons]
      rintro (h | h)
      · exact hne h.symm
      · exact ih h

theorem normalizeNewlinesL_fixed : ∀ {t : Chars}, '\r' ∉ t → normalizeNewlinesL t = t
  | [], _ => rfl
  | c :: cs, h => by
    have hc : c ≠ '\r' := fun hh => h (by simp [hh])
    have hcs : '\r' ∉ cs := fun hh => h (by simp [hh])
    rw [normalizeNewlinesL.eq_def]
    split
    · next heq => exact absurd heq (by simp)
    · next cs2 heq =>
      injection heq with h1 _
      exact (hc h1).elim
    · next cs2 heq =>
      injection heq with h1 _
      exact (hc h1).elim
    · next c2 cs2 _ _ heq =>
      injection heq with h1 h2
      rw [← h1, ← h2, normalizeNewlinesL_fixed hcs]

theorem normalizeNewlinesL_idem (t : Chars) :
    normalizeNewlinesL (normalizeNewlinesL t) = normalizeNewlinesL t :=
  normalizeNewlinesL_fixed (normalizeNewlinesL_no_cr t)

theorem trimLeft_subset {c : Char} {t : Chars} (h : c ∈ trimLeft t) : c ∈ t := by
  unfold trimLeft at h
  have h2 : c ∈ (wsSplit t).1 ++ (wsSplit t).2 := List.mem_append_right _ h
  rw [← wsSplit_eq t] at h2
  exact h2

theorem trimRight_subset {c : Char} {t : Chars} (h : c ∈ trimRight t) : c ∈ t := by
  unfold trimRight at h
  exact List.mem_reverse.mp (trimLeft_subset (List.mem_reverse.mp h))

theorem trimBoth_subset {c : Char} {t : Chars} (h : c ∈ trimBoth t) : c ∈ t :=
  trimLeft_subset (trimRight_subset h)

theorem splitOnNL_subset : ∀ {t l : Chars}, l ∈ splitOnNL t → ∀ {c : Char}, c ∈ l → c ∈ t
  | [], l, hl, c, hc => by
    simp only [splitOnNL, List.mem_singleton] at hl
    subst hl
    simp at hc
  | d :: ds, l, hl, c, hc => by
    simp only [splitOnNL] at hl
    split at hl
    · rcases List.mem_cons.mp hl with h | h
      · subst h
        simp at hc
      · exact List.mem_cons_of_mem _ (splitOnNL_subset h hc)
    · split at hl
      · next hnil =>
        simp only [List.mem_singleton] at hl
        subst hl
        simp only [List.mem_singleton] at hc
        simp [hc]
      · next l2 ls heq =>
        rcases List.mem_cons.mp hl with h | h
        · subst h
          rcases List.mem_cons.mp hc with h2 | h2
          · simp [h2]
          · exact List.mem_cons_of_mem _
              (splitOnNL_subset (heq ▸ List.mem_cons_self l2 ls) h2)
        · exact List.mem_cons_of_mem _
            (splitOnNL_subset (heq ▸ List.mem_cons_of_mem l2 h) hc)

theorem parseMetaLine_val_subset {line : Chars} {k v : String}
    (h0 : parseMetaLine line = some (k, v)) : ∀ {c : Char}, c ∈ v.data → c ∈ line := by
  intro c hc
  have h : (if (trimLeft line).takeWhile isWordChar = [] then none
      else
        match trimLeft ((trimLeft line).dropWhile isWordChar) with
        | ':' :: v2 => some (((trimLeft line).takeWhile isWordChar).asString,
            (trimBoth v2).asString)
        | _ => none) = some (k, v) := h0
  split at h
  · exact absurd h (by simp)
  · split at h
    · next v2 heq =>
      cases h
      have h1 : c ∈ trimBoth v2 := hc
      have h2 : c ∈ (':' :: v2) := List.mem_cons_of_mem _ (trimBoth_subset h1)
      rw [← heq] at h2
      have h3 : c ∈ (trimLeft line).dropWhile isWordChar := trimLeft_subset h2
      exact trimLeft_subset ((List.dropWhile_sublist _).subset h3)
    · exact absurd h (by simp)

theorem metaGet_subset {m : Chars} {k v : String}
    (h : metaGet (metaPairs m) k = some v) : ∀ {c : Char}, c ∈ v.data → c ∈ m := by
  intro c hc
  unfold metaGet at h
  cases hf : (metaPairs m).reverse.find? (fun p => p.1 = k) with
  | none => rw [hf] at h; exact absurd h (by simp)
  | some p =>
    rw [hf] at h
    simp only [Option.map_some', Option.some.injEq] at h
    have hp : p ∈ metaPairs m := List.mem_reverse.mp (List.mem_of_find?_eq_some hf)
    unfold metaPairs at hp
    obtain ⟨line, hline, hpl⟩ := List.mem_filterMap.mp hp
    have : c ∈ line := by
      refine @parseMetaLine_val_subset line p.1 v ?_ _ hc
      rw [hpl]
      rw [← h]
    exact splitOnNL_subset hline this

theorem matchBlockAt_mem {t m b rest : Chars} (h : matchBlockAt t = some (m, b, rest)) :
    (∀ {c : Char}, c ∈ m → c ∈ t) ∧ (∀ {c : Char}, c ∈ b → c ∈ t) := by
  unfold matchBlockAt at h
  split at h
  · exact absurd h (by simp)
  · next t1 h1 =>
    split at h
    · exact absurd h (by simp)
    · next t2 h2 =>
      split at h
      · exact absurd h (by simp)
      · next t3 h3 =>
        split at h
        · exact absurd h (by simp)
        · next m4 t4 h4 =>
          split at h
          · exact absurd h (by simp)
          · next body5 rest5 h5 =>
            cases h
            have e1 := stripLit_eq h1
            unfold stripWSThenLit at h2
            have e2 := stripLit_eq h2
            obtain ⟨pre3, e3⟩ := stripWSNewline_decomp h3
            have e4 := splitFirst_decomp h4
            obtain ⟨mid5, e5, _⟩ := findEnd_decomp h5
            have ht3 : ∀ {c : Char}, c ∈ t3 → c ∈ t := by
              intro c hc
              have s2 : c ∈ t2 := by
                rw [e3]
                exact List.mem_append_right _ hc
              have s1 : c ∈ t1 := by
                have hx : c ∈ (wsSplit t1).1 ++ (wsSplit t1).2 := by
                  refine List.mem_append_right _ ?_
                  rw [e2]
                  exact List.mem_append_right _ s2
                rw [← wsSplit_eq t1] at hx
                exact hx
              rw [e1]
              exact List.mem_append_right _ s1
            constructor
            · intro c hc
              refine ht3 ?_
              rw [e4]
              exact List.mem_append_left _ (List.mem_append_left _ hc)
            · intro c hc
              refine ht3 ?_
              rw [e4]
              refine List.mem_append_right _ ?_
              rw [e5]
              exact List.mem_append_left _ (List.mem_append_left _ hc)

theorem findBlock_mem : ∀ {t g m b rest : Chars}, findBlock t = some (g, m, b, rest) →
    (∀ {c : Char}, c ∈ m → c ∈ t) ∧ (∀ {c : Char}, c ∈ b → c ∈ t)
  | [], g, m, b, rest, h => by simp [findBlock] at h
  | c0 :: cs, g, m, b, rest, h => by
    simp only [findBlock] at h
    split at h
    · next m2 b2 rest2 hm =>
      cases h
      exact matchBlockAt_mem hm
    · next hm =>
      cases hf : findBlock cs with
      | none => rw [hf] at h; exact absurd h (by simp)
      | some p =>
        rw [hf] at h
        simp only [Option.map_some', Option.some.injEq, Prod.mk.injEq] at h
        obtain ⟨h1, h2, h3, h4⟩ := h
        have hrec := @findBlock_mem cs p.1 p.2.1 p.2.2.1 p.2.2.2 hf
        subst h2
        subst h3
        exact ⟨fun hc => List.mem_cons_of_mem _ (hrec.1 hc),
               fun hc => List.mem_cons_of_mem _ (hrec.2 hc)⟩

theorem digitChar_isDigit {m : Nat} (h : m < 10) : (Nat.digitChar m).isDigit = true := by
  interval_cases m <;> decide

theorem toDigitsCore_digits : ∀ (f n : Nat) (acc : Chars),
    (∀ c ∈ acc, c.isDigit = true) → ∀ c ∈ Nat.toDigitsCore 10 f n acc, c.isDigit = true
  | 0, n, acc, hacc, c, hc => by
    unfold Nat.toDigitsCore at hc
    exact hacc c hc
  | f + 1, n, acc, hacc, c, hc => by
    have hd : (Nat.digitChar (n % 10)).isDigit = true :=
      digitChar_isDigit (Nat.mod_lt _ (by norm_num))
    have hc2 : c ∈ (if n / 10 = 0 then Nat.digitChar (n % 10) :: acc
        else Nat.toDigitsCore 10 f (n / 10) (Nat.digitChar (n % 10) :: acc)) := hc
    split at hc2
    · rcases List.mem_cons.mp hc2 with h | h
      · rw [h]
        exact hd
      · exact hacc c h
    · refine toDigitsCore_digits f (n / 10) _ ?_ c hc2
      intro d hd2
      rcases List.mem_cons.mp hd2 with h | h
      · rw [h]
        exact hd
      · exact hacc d h

theorem nat_repr_digits (n : Nat) : ∀ c ∈ (Nat.repr n).data, c.isDigit = true := by
  intro c hc
  exact toDigitsCore_digits (n + 1) n [] (by simp) c hc

/-- Characters of the decimal representation of an integer. -/
theorem int_toString_chars (n : Int) : ∀ c ∈ (toString n).data, c.isDigit = true ∨ c = '-' := by
  cases n with
  | ofNat m =>
    intro c hc
    exact Or.inl (nat_repr_digits m c hc)
  | negSucc m =>
    intro c hc
    have he : (toString (Int.negSucc m)).data = '-' :: (Nat.repr (m + 1)).data := rfl
    rw [he] at hc
    rcases List.mem_cons.mp hc with h | h
    · exact Or.inr h
    · exact Or.inl (nat_repr_digits (m + 1) c h)

theorem numChar_not_cr {c : Char} (h : c.isDigit = true ∨ c = '-') : c ≠ '\r' := by
  rcases h with h | h
  · intro he
    rw [he] at h
    exact absurd h (by decide)
  · intro he
    rw [he] at h
    exact absurd h (by decide)

theorem collapseWSAux_chars : ∀ (b : Bool) (l : Chars) {c : Char}, c ∈ collapseWSAux b l →
    c = ' ' ∨ isWS c = false
  | b, [], c, hc => by simp [collapseWSAux] at hc
  | b, d :: ds, c, hc => by
    simp only [collapseWSAux] at hc
    split at hc
    · split at hc
      · exact collapseWSAux_chars true ds hc
      · rcases List.mem_cons.mp hc with h | h
        · exact Or.inl h
        · exact collapseWSAux_chars true ds h
    · next hd =>
      rcases List.mem_cons.mp hc with h | h
      · subst h
        exact Or.inr (by simpa using hd)
      · exact collapseWSAux_chars false ds h

theorem normalizeTag_chars (raw : String) {c : Char} (hc : c ∈ (normalizeTag raw).data) :
    c = ' ' ∨ isWS c = false :=
  collapseWSAux_chars false _ (trimBoth_subset hc)

theorem normalizeTag_not_cr (raw : String) {c : Char} (hc : c ∈ (normalizeTag raw).data) :
    c ≠ '\r' := by
  rcases normalizeTag_chars raw hc with h | h
  · rw [h]
    decide
  · intro he
    rw [he] at h
    exact absurd h (by decide)

theorem joinTags_chars : ∀ (l : List String) {c : Char}, c ∈ (joinTags l).data →
    (∃ s ∈ l, c ∈ s.data) ∨ c = ',' ∨ c = ' '
  | [], c, hc => by simp [joinTags] at hc
  | [t], c, hc => by
    simp only [joinTags] at hc
    exact Or.inl ⟨t, by simp, hc⟩
  | t :: t2 :: ts, c, hc => by
    simp only [joinTags] at hc
    have hc2 : c ∈ t.data ++ (", ".data ++ (joinTags (t2 :: ts)).data) := by
      simpa [String.data_append] using hc
    rcases List.mem_append.mp hc2 with h | h
    · exact Or.inl ⟨t, by simp, h⟩
    · rcases List.mem_append.mp h with h | h
      · rcases List.mem_cons.mp h with h | h
        · exact Or.inr (Or.inl h)
        · simp only [List.mem_singleton] at h
          exact Or.inr (Or.inr h)
      · rcases joinTags_chars (t2 :: ts) h with ⟨s, hs, hcs⟩ | h
        · exact Or.inl ⟨s, List.mem_cons_of_mem _ hs, hcs⟩
        · exact Or.inr h

theorem formatEntryBlock_no_cr (id created : String) (cms : Int) (tags : List String)
    (body : String) (hid : '\r' ∉ id.data) (hcrd : '\r' ∉ created.data) :
    '\r' ∉ (formatEntryBlock id created cms tags body).data := by
  intro hc
  have hc2 : '\r' ∈ "<!-- acta:comment\n".data ++ "id: ".data ++ id.data ++ "\n".data
      ++ "created: ".data ++ created.data ++ "\n".data ++ "created_ms: ".data
      ++ (toString cms).data ++ "\n".data ++ "tags: ".data
      ++ (joinTags ((tags.map normalizeTag).filter (fun t => t ≠ ""))).data ++ "\n".data
      ++ "-->\n".data ++ (trimRight (normalizeNewlinesL body.data)) ++ "\n".data
      ++ "<!-- /acta:comment -->\n\n".data := by
    simpa [formatEntryBlock, String.data_append] using hc
  simp only [List.mem_append] at hc2
  rcases hc2 with
    ((((((((((((((((h | h) | h) | h) | h) | h) | h) | h) | h) | h) | h) | h) | h) | h) | h) | h) | h)
  · exact absurd h (by decide)
  · exact absurd h (by decide)
  · exact hid h
  · exact absurd h (by decide)
  · exact absurd h (by decide)
  · exact hcrd h
  · exact absurd h (by decide)
  · exact absurd h (by decide)
  · exact absurd (int_toString_chars cms '\r' h) (by decide)
  · exact absurd h (by decide)
  · exact absurd h (by decide)
  · rcases joinTags_chars _ h with ⟨s, hs, hcs⟩ | h2
    · obtain ⟨hs2, _⟩ := List.mem_filter.mp hs
      obtain ⟨raw, _, hraw⟩ := List.mem_map.mp hs2
      exact normalizeTag_not_cr raw (hraw ▸ hcs) rfl
    · rcases h2 with h2 | h2 <;> exact absurd h2 (by decide)
  · exact absurd h (by decide)
  · exact absurd h (by decide)
  · exact normalizeNewlinesL_no_cr body.data (trimRight_subset h)
  · exact absurd h (by decide)
  · exact absurd h (by decide)

/-- Pieces reused by the scanning rewrites: the gap, the removed or kept
span, and the rest are all parts of the scanned text. -/
theorem findBlock_parts {t g m b rest0 : Chars} (hf : findBlock t = some (g, m, b, rest0)) :
    (∀ {c : Char}, c ∈ g → c ∈ t) ∧ (∀ {c : Char}, c ∈ rest0 → c ∈ t)
      ∧ (∀ {c : Char}, c ∈ (dropNLs rest0).2 → c ∈ t)
      ∧ (∀ {c : Char}, c ∈ (t.drop g.length).take (t.length - g.length - (dropNLs rest0).2.length)
          → c ∈ t) := by
  obtain ⟨mid, he, _⟩ := findBlock_decomp hf
  refine ⟨?_, ?_, ?_, ?_⟩
  · intro c hc
    rw [he]
    exact List.mem_append_left _ (List.mem_append_left _ hc)
  · intro c hc
    rw [he]
    exact List.mem_append_right _ hc
  · intro c hc
    rw [he]
    refine List.mem_append_right _ ?_
    have h2 : c ∈ (dropNLs rest0).1 ++ (dropNLs rest0).2 := List.mem_append_right _ hc
    rw [← dropNLs_eq rest0] at h2
    exact h2
  · intro c hc
    exact (List.drop_subset _ _) ((List.take_subset _ _) hc)

theorem removeAux_no_cr (id : String) : ∀ (fuel : Nat) (t : Chars) (ch : Bool) (acc : Chars),
    '\r' ∉ t → '\r' ∉ acc → '\r' ∉ (removeAux id fuel t ch acc).2
  | 0, t, ch, acc, ht, hacc => by
    simp only [removeAux, List.mem_append]
    rintro (h | h)
    · exact hacc h
    · exact ht h
  | fuel + 1, t, ch, acc, ht, hacc => by
    simp only [removeAux]
    split
    · simp only [List.mem_append]
      rintro (h | h)
      · exact hacc h
      · exact ht h
    · next g m b rest0 hf =>
      have hp := findBlock_parts hf
      split
      · exact removeAux_no_cr id fuel _ _ _ (fun h => ht (hp.2.2.1 h))
          (by
            simp only [List.mem_append]
            rintro (h | h)
            · exact hacc h
            · exact ht (hp.1 h))
      · exact removeAux_no_cr id fuel _ _ _ (fun h => ht (hp.2.2.1 h))
          (by
            simp only [List.mem_append]
            rintro ((h | h) | h)
            · exact hacc h
            · exact ht (hp.1 h)
            · exact ht (hp.2.2.2 h))

theorem updateAux_no_cr (id nextBody : String) (nextTags : List String) :
    ∀ (fuel : Nat) (t : Chars) (ch : Bool) (acc : Chars),
    '\r' ∉ t → '\r' ∉ acc → '\r' ∉ (updateAux id nextBody nextTags fuel t ch acc).2
  | 0, t, ch, acc, ht, hacc => by
    simp only [updateAux, List.mem_append]
    rintro (h | h)
    · exact hacc h
    · exact ht h
  | fuel + 1, t, ch, acc, ht, hacc => by
    simp only [updateAux]
    split
    · simp only [List.mem_append]
      rintro (h | h)
      · exact hacc h
      · exact ht h
    · next g m b rest0 hf =>
      have hp := findBlock_parts hf
      have hmem := findBlock_mem hf
      split
      · next hid =>
        have hidcr : '\r' ∉ id.data := by
          rw [← hid]
          unfold metaGetD
          cases hv : metaGet (metaPairs m) "id" with
          | none => simp
          | some v =>
            intro h
            exact ht (hmem.1 (metaGet_subset hv h))
        have hcrd : '\r' ∉ (metaGetD (metaPairs m) "created").data := by
          unfold metaGetD
          cases hv : metaGet (metaPairs m) "created" with
          | none => simp
          | some v =>
            intro h
            exact ht (hmem.1 (metaGet_subset hv h))
        refine updateAux_no_cr id nextBody nextTags fuel _ _ _ (fun h => ht (hp.2.2.1 h)) ?_
        simp only [List.mem_append]
        rintro ((h | h) | h)
        · exact hacc h
        · exact ht (hp.1 h)
        · exact formatEntryBlock_no_cr _ _ _ _ _ hidcr hcrd h
      · exact updateAux_no_cr id nextBody nextTags fuel _ _ _ (fun h => ht (hp.2.2.1 h))
          (by
            simp only [List.mem_append]
            rintro ((h | h) | h)
            · exact hacc h
            · exact ht (hp.1 h)
            · exact ht (hp.2.2.2 h))

/-- C5 counterexample: a day file using CRLF line endings is decoded and
updated, but the written-back text no longer contains any CRLF: the
original line-ending style is not preserved. -/
theorem claim_c5_counterexample :
    (updateEntryInText
        "<!-- acta:comment\r\nid: a\r\ncreated: c\r\ncreated_ms: 5\r\ntags: \r\n-->\r\nB\r\n<!-- /acta:comment -->\r\n"
        "a" "NB" []).1 = true
      ∧ occurs ['\r']
          "<!-- acta:comment\r\nid: a\r\ncreated: c\r\ncreated_ms: 5\r\ntags: \r\n-->\r\nB\r\n<!-- /acta:comment -->\r\n".data
          = true
      ∧ occurs ['\r']
          (updateEntryInText
            "<!-- acta:comment\r\nid: a\r\ncreated: c\r\ncreated_ms: 5\r\ntags: \r\n-->\r\nB\r\n<!-- /acta:comment -->\r\n"
            "a" "NB" []).2.data = false := by
  refine ⟨by decide, by decide, by decide⟩

/-- C5 (amended): decoding and the remove and update rewrites tolerate
CRLF and LF input transparently — each computes the same result on a
text and on its newline normalization — but the written-back whole file
is always LF-normalized (it contains no carriage return), rather than
preserving the original line-ending style. -/
theorem claim_c5 (text date sourceFile id nextBody : String) (nextTags : List String) :
    parseEntriesFromText (normalizeNewlines text) date sourceFile
        = parseEntriesFromText text date sourceFile
      ∧ removeEntryFromText (normalizeNewlines text) id = removeEntryFromText text id
      ∧ updateEntryInText (normalizeNewlines text) id nextBody nextTags
          = updateEntryInText text id nextBody nextTags
      ∧ '\r' ∉ (removeEntryFromText text id).2.data
      ∧ '\r' ∉ (updateEntryInText text id nextBody nextTags).2.data := by
  have e : normalizeNewlinesL (normalizeNewlines text).data = normalizeNewlinesL text.data :=
    normalizeNewlinesL_idem text.data
  refine ⟨?_, ?_, ?_, ?_, ?_⟩
  · unfold parseEntriesFromText
    rw [e]
  · unfold removeEntryFromText
    rw [e]
  · unfold updateEntryInText
    rw [e]
  · exact removeAux_no_cr id _ _ false [] (normalizeNewlinesL_no_cr text.data) (by simp)
  · exact updateAux_no_cr id nextBody nextTags _ _ false []
      (normalizeNewlinesL_no_cr text.data) (by simp)

/-- A store file system whose directory listing is rejected. -/
def fsReaddirFails : StoreFS :=
  { dir := "/d", mkdirFails := false, readdir := none,
    read := fun _ => none, writeFails := fun _ => false }

/-- A store file system whose directory creation is rejected. -/
def fsMkdirFails : StoreFS :=
  { dir := "/d", mkdirFails := true, readdir := some [],
    read := fun _ => none, writeFails := fun _ => false }

def afsMkdirFails : AddFS :=
  { dir := "/d", mkdirFails := true, todayExists := false, todayContent := "",
    writeFails := false }

def nowJan1 : Now :=
  { year := 2025, month0 := 0, day := 1, hour := 9, minute := 30, epochMs := 1735723800000 }

/-- C3 counterexample: with the directory listing rejected (a
directory-level I/O failure), delete and update succeed with the
structured not-found result instead of failing with a hard error. -/
theorem claim_c3_counterexample :
    deleteEntry fsReaddirFails "x" = ⟨MutResult.ok false, none⟩
      ∧ updateEntry fsReaddirFails "x" "b" [] = ⟨MutResult.ok false, none⟩ := by
  refine ⟨by decide, by decide⟩

/-- C3 (amended): a failure to create the data directory propagates as a
hard error from add, update and delete; but a failure to read the
directory listing is not a hard error for update and delete — they
return the structured not-found result, rather than raising — and add
never reads the listing at all. -/
theorem claim_c3 (fs : StoreFS) (afs : AddFS) (now : Now) (freshId pid body : String)
    (tags : List String) :
    (afs.mkdirFails = true → (trimBoth body.data).asString ≠ "" →
        addEntry afs now freshId body tags = .error StoreErr.mkdirFailed)
    ∧ (fs.mkdirFails = true → (trimBoth pid.data).asString ≠ "" →
        deleteEntry fs pid = ⟨MutResult.err StoreErr.mkdirFailed, none⟩)
    ∧ (fs.mkdirFails = true → (trimBoth pid.data).asString ≠ "" →
        (trimBoth body.data).asString ≠ "" →
        updateEntry fs pid body tags = ⟨MutResult.err StoreErr.mkdirFailed, none⟩)
    ∧ (fs.mkdirFails = false → fs.readdir = none → (trimBoth pid.data).asString ≠ "" →
        deleteEntry fs pid = ⟨MutResult.ok false, none⟩)
    ∧ (fs.mkdirFails = false → fs.readdir = none → (trimBoth pid.data).asString ≠ "" →
        (trimBoth body.data).asString ≠ "" →
        updateEntry fs pid body tags = ⟨MutResult.ok false, none⟩) := by
  refine ⟨?_, ?_, ?_, ?_, ?_⟩
  · intro hm hb
    simp [addEntry, hb, hm]
  · intro hm hi
    simp [deleteEntry, hi, hm]
  · intro hm hi hb
    simp [updateEntry, hi, hb, hm]
  · intro hm hrd hi
    simp [deleteEntry, hi, hm, hrd]
  · intro hm hrd hi hb
    simp [updateEntry, hi, hb, hm, hrd]

/-- Witness for C3 at concrete inputs. -/
theorem claim_c3_witness :
    addEntry afsMkdirFails nowJan1 "I1" "hello" [] = .error StoreErr.mkdirFailed
      ∧ deleteEntry fsMkdirFails "a" = ⟨MutResult.err StoreErr.mkdirFailed, none⟩
      ∧ updateEntry fsMkdirFails "a" "b" [] = ⟨MutResult.err StoreErr.mkdirFailed, none⟩
      ∧ deleteEntry fsReaddirFails "a" = ⟨MutResult.ok false, none⟩
      ∧ updateEntry fsReaddirFails "a" "b" [] = ⟨MutResult.ok false, none⟩ :=
  ⟨(claim_c3 fsMkdirFails afsMkdirFails nowJan1 "I1" "a" "hello" []).1 rfl (by decide),
   (claim_c3 fsMkdirFails afsMkdirFails nowJan1 "I1" "a" "hello" []).2.1 rfl (by decide),
   (claim_c3 fsMkdirFails afsMkdirFails nowJan1 "I1" "a" "b" []).2.2.1 rfl (by decide)
     (by decide),
   (claim_c3 fsReaddirFails afsMkdirFails nowJan1 "I1" "a" "hello" []).2.2.2.1 rfl rfl
     (by decide),
   (claim_c3 fsReaddirFails afsMkdirFails nowJan1 "I1" "a" "b" []).2.2.2.2 rfl rfl
     (by decide) (by decide)⟩

theorem insertStrAsc_perm (x : String) (l : List String) :
    List.Perm (insertStrAsc x l) (x :: l) := by
  induction l with
  | nil => exact List.Perm.refl _
  | cons y ys ih =>
    simp only [insertStrAsc]
    split
    · exact (ih.cons y).trans (List.Perm.swap x y ys)
    · exact List.Perm.refl _

theorem insertStrAsc_sorted (x : String) (l : List String) (h : l.Pairwise (· ≤ ·)) :
    (insertStrAsc x l).Pairwise (· ≤ ·) := by
  induction l with
  | nil => simp [insertStrAsc]
  | cons y ys ih =>
    simp only [insertStrAsc]
    rcases List.pairwise_cons.mp h with ⟨hy, hys⟩
    split
    · next hle =>
      refine List.pairwise_cons.mpr ⟨?_, ih hys⟩
      intro z hz
      rcases List.mem_cons.mp ((insertStrAsc_perm x ys).mem_iff.mp hz) with hz | hz
      · rw [hz]
        exact hle
      · exact hy z hz
    · next hgt =>
      have hxy : x ≤ y := le_of_not_le hgt
      refine List.pairwise_cons.mpr ⟨?_, h⟩
      intro z hz
      rcases List.mem_cons.mp hz with hz | hz
      · rw [hz]
        exact hxy
      · exact hxy.trans (hy z hz)

theorem sortStrAsc_perm (l : List String) : List.Perm (sortStrAsc l) l := by
  suffices h : ∀ acc : List String,
      List.Perm (l.foldl (fun a x => insertStrAsc x a) acc) (acc ++ l) by
    simpa using h []
  induction l with
  | nil => intro acc; simp
  | cons x xs ih =>
    intro acc
    rw [List.foldl_cons]
    refine (ih (insertStrAsc x acc)).trans ?_
    refine ((insertStrAsc_perm x acc).append_right xs).trans ?_
    exact List.perm_middle.symm

theorem sortStrAsc_sorted (l : List String) : (sortStrAsc l).Pairwise (· ≤ ·) := by
  suffices h : ∀ acc : List String, acc.Pairwise (· ≤ ·) →
      (l.foldl (fun a x => insertStrAsc x a) acc).Pairwise (· ≤ ·) by
    exact h [] (by simp)
  induction l with
  | nil => intro acc h; simpa using h
  | cons x xs ih =>
    intro acc h
    rw [List.foldl_cons]
    exact ih _ (insertStrAsc_sorted x acc h)

/-- The descending key order used by the entry sort. -/
def msGE (a b : Entry) : Prop := b.createdAtMs ≤ a.createdAtMs

theorem insertByMsDesc_perm (x : Entry) (l : List Entry) :
    List.Perm (insertByMsDesc x l) (x :: l) := by
  induction l with
  | nil => exact List.Perm.refl _
  | cons y ys ih =>
    simp only [insertByMsDesc]
    split
    · exact (ih.cons y).trans (List.Perm.swap x y ys)
    · exact List.Perm.refl _

theorem insertByMsDesc_sorted (x : Entry) (l : List Entry) (h : l.Pairwise msGE) :
    (insertByMsDesc x l).Pairwise msGE := by
  induction l with
  | nil => simp [insertByMsDesc]
  | cons y ys ih =>
    simp only [insertByMsDesc]
    rcases List.pairwise_cons.mp h with ⟨hy, hys⟩
    split
    · next hle =>
      refine List.pairwise_cons.mpr ⟨?_, ih hys⟩
      intro z hz
      rcases List.mem_cons.mp ((insertByMsDesc_perm x ys).mem_iff.mp hz) with hz | hz
      · rw [hz]
        exact hle
      · exact hy z hz
    · next hgt =>
      have hxy : msGE x y := le_of_not_le hgt
      refine List.pairwise_cons.mpr ⟨?_, h⟩
      intro z hz
      rcases List.mem_cons.mp hz with hz | hz
      · rw [hz]
        exact hxy
      · exact le_trans (hy z hz) hxy

theorem insertByMsDesc_filter (x : Entry) (l : List Entry) (k : Int) (h : l.Pairwise msGE) :
    (insertByMsDesc x l).filter (fun e => e.createdAtMs = k)
      = l.filter (fun e => e.createdAtMs = k)
          ++ (if x.createdAtMs = k then [x] else []) := by
  induction l with
  | nil =>
    simp only [insertByMsDesc, List.filter_nil, List.nil_append, List.filter_cons]
    split <;> simp_all
  | cons y ys ih =>
    simp only [insertByMsDesc]
    rcases List.pairwise_cons.mp h with ⟨hy, hys⟩
    split
    · next hle =>
      rw [List.filter_cons, List.filter_cons, ih hys]
      by_cases hyk : y.createdAtMs = k
      · simp [hyk]
      · simp [hyk]
    · next hgt =>
      have hlt : y.createdAtMs < x.createdAtMs := lt_of_not_le hgt
      by_cases hxk : x.createdAtMs = k
      · have hnil : (y :: ys).filter (fun e => e.createdAtMs = k) = [] := by
          refine List.filter_eq_nil_iff.mpr ?_
          intro z hz
          have hzy : z.createdAtMs ≤ y.createdAtMs := by
            rcases List.mem_cons.mp hz with hz | hz
            · rw [hz]
            · exact hy z hz
          simp only [decide_eq_true_eq]
          intro hzk
          rw [hzk] at hzy
          rw [hxk] at hlt
          exact absurd (lt_of_le_of_lt hzy hlt) (lt_irrefl k)
        rw [List.filter_cons, hnil]
        simp [hxk]
      · rw [List.filter_cons]
        simp [hxk]

theorem sortByMsDesc_props (l : List Entry) :
    (sortByMsDesc l).Pairwise msGE ∧ List.Perm (sortByMsDesc l) l
      ∧ ∀ k : Int, (sortByMsDesc l).filter (fun e => e.createdAtMs = k)
          = l.filter (fun e => e.createdAtMs = k) := by
  suffices h : ∀ acc : List Entry, acc.Pairwise msGE →
      (l.foldl (fun a x => insertByMsDesc x a) acc).Pairwise msGE
      ∧ List.Perm (l.foldl (fun a x => insertByMsDesc x a) acc) (acc ++ l)
      ∧ ∀ k : Int, (l.foldl (fun a x => insertByMsDesc x a) acc).filter
            (fun e => e.createdAtMs = k)
          = acc.filter (fun e => e.createdAtMs = k) ++ l.filter (fun e => e.createdAtMs = k) by
    obtain ⟨h1, h2, h3⟩ := h [] (by simp)
    exact ⟨h1, by simpa using h2, fun k => by simpa using h3 k⟩
  induction l with
  | nil => intro acc h; simpa using h
  | cons x xs ih =>
    intro acc h
    rw [List.foldl_cons]
    obtain ⟨h1, h2, h3⟩ := ih (insertByMsDesc x acc) (insertByMsDesc_sorted x acc h)
    refine ⟨h1, ?_, ?_⟩
    · refine h2.trans ?_
      refine ((insertByMsDesc_perm x acc).append_right xs).trans ?_
      exact List.perm_middle.symm
    · intro k
      rw [h3 k, insertByMsDesc_filter x acc k h]
      simp only [List.filter_cons]
      by_cases hxk : x.createdAtMs = k
      · simp [hxk]
      · simp [hxk]

/-- C6: listEntries enumerates exactly the day-pattern file names in
ascending lexicographic order, skips a file whose read is rejected
without failing the call, returns the decoded entries sorted descending
by the numeric key with ties kept in encounter order (a stable sort),
and returns the empty list when the directory listing is rejected. -/
theorem claim_c6 (fs : StoreFS) :
    (fs.mkdirFails = false → fs.readdir = none → listEntries fs = .ok [])
    ∧ (∀ f rest, fs.read f = none → gatherEntries fs (f :: rest) = gatherEntries fs rest)
    ∧ (∀ f rest text, fs.read f = some text → gatherEntries fs (f :: rest)
        = parseEntriesFromText text (f.data.take 10).asString (fs.dir ++ "/" ++ f)
            ++ gatherEntries fs rest)
    ∧ (∀ names, fs.mkdirFails = false → fs.readdir = some names →
        (sortStrAsc (names.filter matchesDateFile)).Pairwise (· ≤ ·)
        ∧ List.Perm (sortStrAsc (names.filter matchesDateFile)) (names.filter matchesDateFile)
        ∧ (∀ f ∈ sortStrAsc (names.filter matchesDateFile), matchesDateFile f = true)
        ∧ listEntries fs
            = .ok (sortByMsDesc (gatherEntries fs (sortStrAsc (names.filter matchesDateFile))))
        ∧ (sortByMsDesc (gatherEntries fs (sortStrAsc (names.filter matchesDateFile)))).Pairwise
            msGE
        ∧ List.Perm (sortByMsDesc (gatherEntries fs (sortStrAsc (names.filter matchesDateFile))))
            (gatherEntries fs (sortStrAsc (names.filter matchesDateFile)))
        ∧ (∀ k : Int,
            (sortByMsDesc (gatherEntries fs (sortStrAsc (names.filter matchesDateFile)))).filter
                (fun e => e.createdAtMs = k)
              = (gatherEntries fs (sortStrAsc (names.filter matchesDateFile))).filter
                  (fun e => e.createdAtMs = k))) := by
  refine ⟨?_, ?_, ?_, ?_⟩
  · intro hm hrd
    simp [listEntries, hm, hrd]
  · intro f rest hread
    simp only [gatherEntries, hread]
    simp
  · intro f rest text hread
    simp only [gatherEntries, hread]
  · intro names hm hrd
    obtain ⟨hs1, hs2, hs3⟩ := sortByMsDesc_props (gatherEntries fs (sortStrAsc (names.filter matchesDateFile)))
    refine ⟨sortStrAsc_sorted _, sortStrAsc_perm _, ?_, ?_, hs1, hs2, hs3⟩
    · intro f hf
      exact List.of_mem_filter ((sortStrAsc_perm _).mem_iff.mp hf)
    · simp [listEntries, hm, hrd]

/-- Two one-entry day files for the C6 witness, keys 1000 and 2000. -/
def demoText1 : String :=
  "<!-- acta:comment\nid: a1\ncreated: c1\ncreated_ms: 1000\ntags: \n-->\nA\n<!-- /acta:comment -->\n\n"

def demoText2 : String :=
  "<!-- acta:comment\nid: b2\ncreated: c2\ncreated_ms: 2000\ntags: \n-->\nB\n<!-- /acta:comment -->\n\n"

def fsDemo : StoreFS :=
  { dir := "/d", mkdirFails := false,
    readdir := some ["notes.txt", "2025-01-02.md", "2025-01-01.md", "unread.md"],
    read := fun f =>
      if f = "2025-01-01.md" then some demoText1
      else if f = "2025-01-02.md" then some demoText2
      else none,
    writeFails := fun _ => false }

/-- Witness for C6 at a concrete file system. -/
theorem claim_c6_witness :
    listEntries fsReaddirFails = .ok []
      ∧ gatherEntries fsDemo ("unread.md" :: ["2025-01-01.md"])
          = gatherEntries fsDemo ["2025-01-01.md"]
      ∧ ((sortStrAsc (["notes.txt", "2025-01-02.md", "2025-01-01.md", "unread.md"].filter
            matchesDateFile)).Pairwise (· ≤ ·)
          ∧ List.Perm
              (sortStrAsc (["notes.txt", "2025-01-02.md", "2025-01-01.md", "unread.md"].filter
                matchesDateFile))
              (["notes.txt", "2025-01-02.md", "2025-01-01.md", "unread.md"].filter
                matchesDateFile)
          ∧ (∀ f ∈ sortStrAsc (["notes.txt", "2025-01-02.md", "2025-01-01.md", "unread.md"].filter
              matchesDateFile), matchesDateFile f = true)
          ∧ listEntries fsDemo
              = .ok (sortByMsDesc (gatherEntries fsDemo
                  (sortStrAsc (["notes.txt", "2025-01-02.md", "2025-01-01.md", "unread.md"].filter
                    matchesDateFile))))
          ∧ (sortByMsDesc (gatherEntries fsDemo
              (sortStrAsc (["notes.txt", "2025-01-02.md", "2025-01-01.md", "unread.md"].filter
                matchesDateFile)))).Pairwise msGE
          ∧ List.Perm
              (sortByMsDesc (gatherEntries fsDemo
                (sortStrAsc (["notes.txt", "2025-01-02.md", "2025-01-01.md", "unread.md"].filter
                  matchesDateFile))))
              (gatherEntries fsDemo
                (sortStrAsc (["notes.txt", "2025-01-02.md", "2025-01-01.md", "unread.md"].filter
                  matchesDateFile)))
          ∧ (∀ k : Int,
              (sortByMsDesc (gatherEntries fsDemo
                (sortStrAsc (["notes.txt", "2025-01-02.md", "2025-01-01.md", "unread.md"].filter
                  matchesDateFile)))).filter (fun e => e.createdAtMs = k)
                = (gatherEntries fsDemo
                    (sortStrAsc (["notes.txt", "2025-01-02.md", "2025-01-01.md", "unread.md"].filter
                      matchesDateFile))).filter (fun e => e.createdAtMs = k))) :=
  ⟨(claim_c6 fsReaddirFails).1 rfl rfl,
   (claim_c6 fsDemo).2.1 "unread.md" ["2025-01-01.md"] rfl,
   (claim_c6 fsDemo).2.2.2 ["notes.txt", "2025-01-02.md", "2025-01-01.md", "unread.md"] rfl rfl⟩

theorem wsSplit_run_ws : ∀ (t : Chars), ∀ c ∈ (wsSplit t).1, isWS c = true
  | [], c, hc => by simp [wsSplit] at hc
  | d :: ds, c, hc => by
    simp only [wsSplit] at hc
    split at hc
    · next hd =>
      rcases List.mem_cons.mp hc with h | h
      · rw [h]
        exact hd
      · exact wsSplit_run_ws ds c h
    · simp at hc

theorem wsSplit_nonws_head (t : Chars) (h : ∀ c ∈ t, isWS c = false) : trimLeft t = t := by
  cases t with
  | nil => rfl
  | cons c cs =>
    unfold trimLeft wsSplit
    rw [h c (by simp)]
    simp

theorem trimLeft_cons_nonws (c : Char) (cs : Chars) (h : isWS c = false) :
    trimLeft (c :: cs) = c :: cs := by
  unfold trimLeft wsSplit
  rw [h]
  simp

theorem trimBoth_fixed_of_nonws (t : Chars) (h : ∀ c ∈ t, isWS c = false) :
    trimBoth t = t := by
  unfold trimBoth trimRight
  rw [wsSplit_nonws_head t h, wsSplit_nonws_head t.reverse
    (fun c hc => h c (List.mem_reverse.mp hc)), List.reverse_reverse]

theorem trimLeft_cons_space (v : Chars) : trimLeft (' ' :: v) = trimLeft v := by
  unfold trimLeft
  simp only [wsSplit]
  rw [if_pos (show isWS ' ' = true by decide)]

theorem trimBoth_cons_space (v : Chars) : trimBoth (' ' :: v) = trimBoth v := by
  unfold trimBoth
  rw [trimLeft_cons_space]

theorem trimLeft_eq_nil_all_ws : ∀ {t : Chars}, trimLeft t = [] → ∀ c ∈ t, isWS c = true := by
  intro t ht c hc
  have he := wsSplit_eq t
  unfold trimLeft at ht
  rw [ht, List.append_nil] at he
  exact wsSplit_run_ws t c (he ▸ hc)

theorem trimBoth_nonempty {t : Chars} (c0 : Char) (h0 : c0 ∈ t) (hws : isWS c0 = false) :
    trimBoth t ≠ [] := by
  intro hnil
  unfold trimBoth trimRight at hnil
  have h1 : trimLeft (trimLeft t).reverse = [] := by
    have := congrArg List.reverse hnil
    simpa using this
  have h2 : ∀ c ∈ trimLeft t, isWS c = true := by
    intro c hc
    exact trimLeft_eq_nil_all_ws h1 c (List.mem_reverse.mpr hc)
  have h3 : ∀ c ∈ t, isWS c = true := by
    intro c hc
    have he := wsSplit_eq t
    rw [he] at hc
    rcases List.mem_append.mp hc with h | h
    · exact wsSplit_run_ws t c h
    · exact h2 c h
  rw [h3 c0 h0] at hws
  exact absurd hws (by simp)

theorem splitOnNL_append : ∀ (a b : Chars), '\n' ∉ a →
    splitOnNL (a ++ '\n' :: b) = a :: splitOnNL b
  | [], b, _ => by simp [splitOnNL]
  | c :: a', b, h => by
    have hc : c ≠ '\n' := fun hh => h (by simp [hh])
    have ha : '\n' ∉ a' := fun hh => h (by simp [hh])
    show splitOnNL (c :: (a' ++ '\n' :: b)) = _
    simp only [splitOnNL]
    rw [if_neg hc]
    rw [splitOnNL_append a' b ha]

theorem takeWhile_all_append (p : Char → Bool) : ∀ (a : Chars) (c0 : Char) (b : Chars),
    (∀ c ∈ a, p c = true) → p c0 = false →
    (a ++ c0 :: b).takeWhile p = a ∧ (a ++ c0 :: b).dropWhile p = c0 :: b
  | [], c0, b, _, hc0 => by
    simp [List.takeWhile, List.dropWhile, hc0]
  | c :: a', c0, b, ha, hc0 => by
    have h1 := ha c (by simp)
    obtain ⟨ht, hd⟩ := takeWhile_all_append p a' c0 b (fun d hd => ha d (by simp [hd])) hc0
    constructor
    · simp only [List.cons_append, List.takeWhile_cons, h1, ht]
      simp
    · simp only [List.cons_append, List.dropWhile_cons, h1, hd]
      simp

theorem startsWithL_mem : ∀ {p t : Chars}, startsWithL p t = true → ∀ c ∈ p, c ∈ t
  | [], t, _, c, hc => by simp at hc
  | q :: ps, [], h, c, hc => by simp [startsWithL] at h
  | q :: ps, d :: ds, h, c, hc => by
    simp only [startsWithL, Bool.and_eq_true, decide_eq_true_eq] at h
    rcases List.mem_cons.mp hc with h2 | h2
    · rw [h2, ← h.1]
      simp
    · exact List.mem_cons_of_mem _ (startsWithL_mem h.2 c h2)

theorem occurs_mem : ∀ {p t : Chars}, occurs p t = true → ∀ c ∈ p, c ∈ t
  | p, [], h, c, hc => startsWithL_mem (by simpa [occurs] using h) c hc
  | p, d :: ds, h, c, hc => by
    simp only [occurs, Bool.or_eq_true] at h
    rcases h with h | h
    · exact startsWithL_mem h c hc
    · exact List.mem_cons_of_mem _ (occurs_mem h c hc)

theorem occurs_false_of_not_mem {p t : Chars} (c0 : Char) (hp : c0 ∈ p) (ht : c0 ∉ t) :
    occurs p t = false := by
  cases h : occurs p t
  · rfl
  · exact absurd (occurs_mem h c0 hp) ht

theorem startsWithL_self_append : ∀ (p r : Chars), startsWithL p (p ++ r) = true
  | [], r => rfl
  | c :: ps, r => by simp [startsWithL, startsWithL_self_append ps r]

theorem occurs_of_startsWith {p t : Chars} (h : startsWithL p t = true) : occurs p t = true := by
  cases t with
  | nil => simpa [occurs] using h
  | cons c cs => simp [occurs, h]

theorem occurs_cons_false {p : Chars} {d : Char} {ds : Chars}
    (h : occurs p (d :: ds) = false) :
    startsWithL p (d :: ds) = false ∧ occurs p ds = false := by
  simpa [occurs] using h

theorem stripLit_append_cases : ∀ {p x y z : Chars}, stripLit p (x ++ y) = some z →
    (∃ x2, x = p ++ x2 ∧ z = x2 ++ y) ∨ (∃ p2, p = x ++ p2 ∧ stripLit p2 y = some z)
  | p, [], y, z, h => Or.inr ⟨p, by simp, h⟩
  | [], a :: x', y, z, h => by
    left
    refine ⟨a :: x', by simp, ?_⟩
    simpa [stripLit] using h.symm
  | q :: p', a :: x', y, z, h => by
    simp only [List.cons_append, stripLit] at h
    split at h
    · next hqa =>
      rcases stripLit_append_cases h with ⟨x2, h1, h2⟩ | ⟨p2, h1, h2⟩
      · exact Or.inl ⟨x2, by simp [hqa, h1], h2⟩
      · exact Or.inr ⟨p2, by simp [hqa, h1], h2⟩
    · exact absurd h (by simp)

theorem stripLit_cons_head {q : Char} {ps : Chars} {e : Char} {es z : Chars}
    (h : stripLit (q :: ps) (e :: es) = some z) : q = e := by
  simp only [stripLit] at h
  split at h
  · assumption
  · exact absurd h (by simp)

theorem occurs_append_right (p x y : Chars) (h : occurs p y = true) :
    occurs p (x ++ y) = true := by
  induction x with
  | nil => simpa using h
  | cons c x' ih =>
    show occurs p (c :: (x' ++ y)) = true
    simp only [occurs, Bool.or_eq_true]
    exact Or.inr ih

theorem wsSplit_allws_append (x y : Chars) (h : ∀ c ∈ x, isWS c = true) :
    wsSplit (x ++ y) = (x ++ (wsSplit y).1, (wsSplit y).2) := by
  induction x with
  | nil => simp
  | cons c x' ih =>
    show wsSplit (c :: (x' ++ y)) = _
    simp only [wsSplit]
    rw [if_pos (h c (by simp)), ih (fun d hd => h d (by simp [hd]))]
    rfl

theorem wsSplit_head_nonws (x1 : Chars) (v : Char) (z : Chars)
    (h1 : ∀ c ∈ x1, isWS c = true) (hv : isWS v = false) :
    wsSplit (x1 ++ v :: z) = (x1, v :: z) := by
  induction x1 with
  | nil =>
    show wsSplit (v :: z) = _
    simp only [wsSplit]
    rw [if_neg (by simp [hv])]
  | cons c x' ih =>
    show wsSplit (c :: (x' ++ v :: z)) = _
    simp only [wsSplit]
    rw [if_pos (h1 c (by simp)), ih (fun d hd => h1 d (by simp [hd]))]

theorem wsSplit_cases (x : Chars) :
    (∀ c ∈ x, isWS c = true)
      ∨ ∃ x1 v x3, x = x1 ++ v :: x3 ∧ isWS v = false ∧ (∀ c ∈ x1, isWS c = true) := by
  induction x with
  | nil => exact Or.inl (by simp)
  | cons c x' ih =>
    cases hc : isWS c with
    | false => exact Or.inr ⟨[], c, x', by simp, hc, by simp⟩
    | true =>
      rcases ih with h | ⟨x1, v, x3, he, hv, h1⟩
      · refine Or.inl ?_
        intro d hd
        rcases List.mem_cons.mp hd with h2 | h2
        · rw [h2]; exact hc
        · exact h d h2
      · refine Or.inr ⟨c :: x1, v, x3, by simp [he], hv, ?_⟩
        intro d hd
        rcases List.mem_cons.mp hd with h2 | h2
        · rw [h2]; exact hc
        · exact h1 d h2

/-- One canonical stored block, with the fields formatEntryBlock writes. -/
structure CEntry where
  id : String
  created : String
  cms : Int
  tags : List String
  body : String
deriving Repr, DecidableEq

/-- The jsSetDedup-normalized tags computed by addEntry and updateEntry. -/
def cleanTagsOf (tags : List String) : List String :=
  jsSetDedup ((tags.map normalizeTag).filter (fun t => t ≠ ""))

/-- The tag line of a canonical block. -/
def tagLine (e : CEntry) : String :=
  joinTags ((e.tags.map normalizeTag).filter (fun t => t ≠ ""))

/-- The meta capture of a canonical block. -/
def metaChars (e : CEntry) : Chars :=
  ("id: " ++ e.id ++ "\n" ++ "created: " ++ e.created ++ "\n" ++ "created_ms: "
    ++ toString e.cms ++ "\n" ++ "tags: " ++ tagLine e ++ "\n").data

def renderBlock (e : CEntry) : String :=
  formatEntryBlock e.id e.created e.cms e.tags e.body

def renderBlocks : List CEntry → String
  | [] => ""
  | e :: es => renderBlock e ++ renderBlocks es

/-- A day file in canonical form: a marker-free preamble followed by
formatted blocks. -/
def renderStore (pre : String) (es : List CEntry) : String := pre ++ renderBlocks es

def endMark : Chars := "\n<!-- /acta:comment -->".data

/-- A clean header value: nonempty, trim-fixed, free of newlines,
carriage returns and the closing angle bracket. -/
def CleanField (s : String) : Prop :=
  s.data ≠ [] ∧ trimBoth s.data = s.data ∧ '\n' ∉ s.data ∧ '\r' ∉ s.data ∧ '>' ∉ s.data

/-- A clean tag: nonempty, fixed by every normalization stage, and free
of the separators and of the closing angle bracket. -/
def CleanTag (t : String) : Prop :=
  t ≠ "" ∧ stripMarker t.data = t.data ∧ collapseWS t.data = t.data
    ∧ trimBoth t.data = t.data ∧ ',' ∉ t.data ∧ '、' ∉ t.data ∧ '>' ∉ t.data

/-- A clean body: already in the stored clean form and free of the end
marker name. -/
def CleanBody (b : String) : Prop :=
  trimRight (normalizeNewlinesL b.data) = b.data ∧ occurs slashName b.data = false

/-- A canonical entry whose rendering decodes back to itself. -/
def Clean (e : CEntry) : Prop :=
  CleanField e.id ∧ CleanField e.created ∧ e.cms ≠ 0
    ∧ jsNumber (toString e.cms) = some e.cms
    ∧ (∀ t ∈ e.tags, CleanTag t) ∧ e.tags.Nodup ∧ CleanBody e.body

/-- The Entry a canonical block decodes to. -/
def toEntry (date src : String) (e : CEntry) : Entry :=
  { id := e.id, date := date, created := e.created, createdAtMs := e.cms,
    tags := e.tags, body := e.body, sourceFile := src }

theorem cleanTag_normalizeTag_fixed {t : String} (h : CleanTag t) : normalizeTag t = t := by
  obtain ⟨_, h1, h2, h3, _⟩ := h
  unfold normalizeTag
  rw [h1, h2, h3]
  rfl

theorem collapse_fixed_not_mem {t : Chars} {c : Char} (h : collapseWS t = t)
    (hc : isWS c = true) (hcs : c ≠ ' ') : c ∉ t := by
  intro hmem
  rcases collapseWSAux_chars false t (h ▸ hmem) with h2 | h2
  · exact hcs h2
  · rw [hc] at h2
    exact absurd h2 (by simp)

theorem wsSplit_snd_head : ∀ (t : Chars) {c : Char} {cs : Chars},
    (wsSplit t).2 = c :: cs → isWS c = false
  | [], _, _, h => by simp [wsSplit] at h
  | d :: ds, c, cs, h => by
    simp only [wsSplit] at h
    split at h
    · exact wsSplit_snd_head ds h
    · next hd =>
      have h2 : d :: ds = c :: cs := h
      injection h2 with h3 _
      rw [← h3]
      simpa using hd

theorem trimLeft_idem (t : Chars) : trimLeft (trimLeft t) = trimLeft t := by
  cases ht : trimLeft t with
  | nil => rfl
  | cons c cs => exact trimLeft_cons_nonws c cs (wsSplit_snd_head t ht)

theorem matchEndAt_canonical (r : Chars) : matchEndAt (endMark ++ r) = some r := rfl

theorem slash_stage_refute (x2 r : Chars) (hocc : occurs slashName x2 = false) :
    stripWSThenLit slashName (x2 ++ (endMark ++ r)) = none := by
  unfold stripWSThenLit
  rcases wsSplit_cases x2 with hws | ⟨x1, v, x3, he, hv, h1⟩
  · rw [wsSplit_allws_append x2 (endMark ++ r) hws]
    have h2 : (wsSplit (endMark ++ r)).2 = '<' :: ("!-- /acta:comment -->".data ++ r) := rfl
    rw [h2]
    rfl
  · have he2 : x2 ++ (endMark ++ r) = x1 ++ v :: (x3 ++ (endMark ++ r)) := by
      rw [he]; simp
    rw [he2, wsSplit_head_nonws x1 v _ h1 hv]
    cases hs : stripLit slashName (v :: (x3 ++ (endMark ++ r))) with
    | none => rfl
    | some z =>
      exfalso
      have hs2 : stripLit slashName ((v :: x3) ++ (endMark ++ r)) = some z := hs
      rcases stripLit_append_cases hs2 with ⟨y2, hy1, _⟩ | ⟨p2, hp1, hp2⟩
      · have h3 : occurs slashName (v :: x3) = true := by
          rw [hy1]
          exact occurs_of_startsWith (startsWithL_self_append slashName y2)
        have h4 : occurs slashName x2 = true := by
          rw [he]; exact occurs_append_right _ _ _ h3
        rw [h4] at hocc
        exact absurd hocc (by simp)
      · cases p2 with
        | nil =>
          have hp1v : v :: x3 = slashName := by
            rw [List.append_nil] at hp1
            exact hp1.symm
          have h3 : occurs slashName (v :: x3) = true := by
            rw [hp1v]
            exact occurs_of_startsWith (by simpa using startsWithL_self_append slashName [])
          have h4 : occurs slashName x2 = true := by
            rw [he]; exact occurs_append_right _ _ _ h3
          rw [h4] at hocc
          exact absurd hocc (by simp)
        | cons q p2u =>
          have hq : q = '\n' :=
            stripLit_cons_head
              (show stripLit (q :: p2u) ('\n' :: ("<!-- /acta:comment -->".data ++ r)) = some z
                from hp2)
          have hqmem : q ∈ slashName := by
            rw [hp1]
            exact List.mem_append_right _ (by simp)
          rw [hq] at hqmem
          exact absurd hqmem (by decide)

theorem matchEndAt_refute (c : Char) (x2 r : Chars)
    (hocc : occurs slashName (c :: x2) = false) :
    matchEndAt ((c :: x2) ++ (endMark ++ r)) = none := by
  cases hm : matchEndAt ((c :: x2) ++ (endMark ++ r)) with
  | none => rfl
  | some z =>
    exfalso
    have hocc2 : occurs slashName x2 = false := (occurs_cons_false hocc).2
    unfold matchEndAt at hm
    split at hm
    · exact absurd hm (by simp)
    · next t1 h1 =>
      have ht1 : c :: (x2 ++ (endMark ++ r)) = '\n' :: t1 := stripLit_eq h1
      injection ht1 with hc ht1a
      split at hm
      · exact absurd hm (by simp)
      · next t2 h2 =>
        rw [← ht1a] at h2
        rcases stripLit_append_cases h2 with ⟨y2, hy1, hy2⟩ | ⟨p2, hp1, hp2⟩
        · have hocc3 : occurs slashName y2 = false := by
            cases hx : occurs slashName y2 with
            | false => rfl
            | true =>
              have h5 : occurs slashName x2 = true := by
                rw [hy1]; exact occurs_append_right _ _ _ hx
              rw [h5] at hocc2
              exact absurd hocc2 (by simp)
          rw [hy2] at hm
          split at hm
          · exact absurd hm (by simp)
          · next t3 h3 =>
            rw [slash_stage_refute y2 r hocc3] at h3
            exact absurd h3 (by simp)
        · cases p2 with
          | nil =>
            have ht2 : t2 = endMark ++ r := by
              have h6 := hp2
              simp only [stripLit, Option.some.injEq] at h6
              exact h6.symm
            rw [ht2] at hm
            split at hm
            · exact absurd hm (by simp)
            · next t3 h3 =>
              have h7 : stripWSThenLit slashName ([] ++ (endMark ++ r)) = none :=
                slash_stage_refute [] r (by decide)
              rw [List.nil_append] at h7
              rw [h7] at h3
              exact absurd h3 (by simp)
          | cons q p2u =>
            have hq : q = '\n' :=
              stripLit_cons_head
                (show stripLit (q :: p2u) ('\n' :: ("<!-- /acta:comment -->".data ++ r)) = some t2
                  from hp2)
            have hqmem : q ∈ startLit := by
              rw [hp1]
              exact List.mem_append_right _ (by simp)
            rw [hq] at hqmem
            exact absurd hqmem (by decide)

theorem findEnd_canonical : ∀ (body r : Chars), occurs slashName body = false →
    findEnd (body ++ (endMark ++ r)) = some (body, r)
  | [], r, _ => by
    show findEnd (endMark ++ r) = some ([], r)
    have h0 : endMark ++ r = '\n' :: ("<!-- /acta:comment -->".data ++ r) := rfl
    rw [h0]
    simp only [findEnd]
    rw [show matchEndAt ('\n' :: ("<!-- /acta:comment -->".data ++ r)) = some r from
      matchEndAt_canonical r]
  | c :: body2, r, hocc => by
    have hocc2 : occurs slashName body2 = false := (occurs_cons_false hocc).2
    show findEnd (c :: (body2 ++ (endMark ++ r))) = _
    simp only [findEnd]
    rw [show matchEndAt (c :: (body2 ++ (endMark ++ r))) = none from
      matchEndAt_refute c body2 r hocc]
    rw [findEnd_canonical body2 r hocc2]
    rfl

theorem splitFirst_arrowNL_canonical : ∀ (a b : Chars), occurs arrowNL a = false →
    splitFirst arrowNL (a ++ (arrowNL ++ b)) = some (a, b)
  | [], b, _ => by
    show splitFirst arrowNL (arrowNL ++ b) = some ([], b)
    have h0 : arrowNL ++ b = '-' :: ('-' :: '>' :: '\n' :: b) := rfl
    rw [h0]
    simp only [splitFirst]
    rw [show stripLit arrowNL ('-' :: '-' :: '>' :: '\n' :: b) = some b from
      stripLit_append arrowNL b]
  | c :: a2, b, hocc => by
    have hocc2 : occurs arrowNL a2 = false := (occurs_cons_false hocc).2
    have hsw : startsWithL arrowNL (c :: a2) = false := (occurs_cons_false hocc).1
    show splitFirst arrowNL (c :: (a2 ++ (arrowNL ++ b))) = _
    simp only [splitFirst]
    have hnone : stripLit arrowNL (c :: (a2 ++ (arrowNL ++ b))) = none := by
      cases hs : stripLit arrowNL (c :: (a2 ++ (arrowNL ++ b))) with
      | none => rfl
      | some z =>
        exfalso
        have hs2 : stripLit arrowNL ((c :: a2) ++ (arrowNL ++ b)) = some z := hs
        rcases stripLit_append_cases hs2 with ⟨y2, hy1, _⟩ | ⟨p2, hp1, hp2⟩
        · rw [hy1, startsWithL_self_append] at hsw
          exact absurd hsw (by simp)
        · have hp1b : '-' :: ('-' :: '>' :: '\n' :: ([] : Chars)) = c :: (a2 ++ p2) := hp1
          injection hp1b with hc h4
          cases a2 with
          | nil =>
            have h4b : '-' :: '>' :: '\n' :: ([] : Chars) = p2 := h4
            rw [← h4b] at hp2
            rw [show stripLit ('-' :: '>' :: '\n' :: []) (arrowNL ++ b) = none from rfl] at hp2
            exact absurd hp2 (by simp)
          | cons c2 a3 =>
            injection h4 with hc2 h5
            cases a3 with
            | nil =>
              have h5b : '>' :: '\n' :: ([] : Chars) = p2 := h5
              rw [← h5b] at hp2
              rw [show stripLit ('>' :: '\n' :: []) (arrowNL ++ b) = none from rfl] at hp2
              exact absurd hp2 (by simp)
            | cons c3 a4 =>
              injection h5 with hc3 h6
              cases a4 with
              | nil =>
                have h6b : '\n' :: ([] : Chars) = p2 := h6
                rw [← h6b] at hp2
                rw [show stripLit ('\n' :: []) (arrowNL ++ b) = none from rfl] at hp2
                exact absurd hp2 (by simp)
              | cons c4 a5 =>
                injection h6 with hc4 h7
                have ha5 : a5 = [] := by
                  cases a5 with
                  | nil => rfl
                  | cons _ _ => exact absurd h7.symm (by simp)
                rw [ha5, ← hc, ← hc2, ← hc3, ← hc4] at hsw
                rw [show startsWithL arrowNL ('-' :: '-' :: '>' :: '\n' :: []) = true from rfl]
                  at hsw
                exact absurd hsw (by simp)
    rw [hnone, splitFirst_arrowNL_canonical a2 b hocc2]
    rfl

theorem matchBlockAt_gap_refute (c : Char) (g2 : Chars) (z : Chars)
    (hocc : occurs startLit (c :: g2) = false) :
    matchBlockAt ((c :: g2) ++ ('<' :: z)) = none := by
  cases hm : matchBlockAt ((c :: g2) ++ ('<' :: z)) with
  | none => rfl
  | some w =>
    exfalso
    have hsw : startsWithL startLit (c :: g2) = false := (occurs_cons_false hocc).1
    unfold matchBlockAt at hm
    split at hm
    · exact absurd hm (by simp)
    · next t1 h1 =>
      rcases stripLit_append_cases h1 with ⟨y2, hy1, _⟩ | ⟨p2, hp1, hp2⟩
      · rw [hy1, startsWithL_self_append] at hsw
        exact absurd hsw (by simp)
      · cases p2 with
        | nil =>
          have h3 : c :: g2 = startLit := by
            rw [List.append_nil] at hp1
            exact hp1.symm
          rw [h3] at hsw
          rw [show startsWithL startLit startLit = true from by
            simpa using startsWithL_self_append startLit []] at hsw
          exact absurd hsw (by simp)
        | cons q p2u =>
          have hq : q = '<' := stripLit_cons_head hp2
          have hp1b : '<' :: ('!' :: '-' :: '-' :: ([] : Chars)) = c :: (g2 ++ (q :: p2u)) := hp1
          injection hp1b with hc h4
          cases g2 with
          | nil =>
            injection h4 with hq2 _
            rw [← hq2] at hq
            exact absurd hq (by decide)
          | cons d g3 =>
            injection h4 with hd h5
            cases g3 with
            | nil =>
              injection h5 with hq2 _
              rw [← hq2] at hq
              exact absurd hq (by decide)
            | cons e g4 =>
              injection h5 with he h6
              cases g4 with
              | nil =>
                injection h6 with hq2 _
                rw [← hq2] at hq
                exact absurd hq (by decide)
              | cons f2 g5 =>
                injection h6 with hf h7
                exact absurd h7.symm (by simp)

theorem findBlock_gap (g : Chars) (z m b rest : Chars)
    (hocc : occurs startLit g = false)
    (hm : matchBlockAt ('<' :: z) = some (m, b, rest)) :
    findBlock (g ++ ('<' :: z)) = some (g, m, b, rest) := by
  induction g with
  | nil =>
    rw [List.nil_append]
    simp only [findBlock]
    rw [hm]
  | cons c g2 ih =>
    have hocc2 : occurs startLit g2 = false := (occurs_cons_false hocc).2
    show findBlock (c :: (g2 ++ ('<' :: z))) = _
    simp only [findBlock]
    rw [show matchBlockAt (c :: (g2 ++ ('<' :: z))) = none from
      matchBlockAt_gap_refute c g2 z hocc]
    rw [ih hocc2]
    rfl

theorem findBlock_none (t : Chars) (hocc : occurs startLit t = false) :
    findBlock t = none := by
  induction t with
  | nil => rfl
  | cons c cs ih =>
    have hsw : startsWithL startLit (c :: cs) = false := (occurs_cons_false hocc).1
    have hocc2 : occurs startLit cs = false := (occurs_cons_false hocc).2
    simp only [findBlock]
    have hm : matchBlockAt (c :: cs) = none := by
      cases hmm : matchBlockAt (c :: cs) with
      | none => rfl
      | some w =>
        exfalso
        unfold matchBlockAt at hmm
        split at hmm
        · exact absurd hmm (by simp)
        · next t1 h1 =>
          rw [stripLit_eq h1, startsWithL_self_append] at hsw
          exact absurd hsw (by simp)
    rw [hm, ih hocc2]
    rfl

theorem trimRight_idem (t : Chars) : trimRight (trimRight t) = trimRight t := by
  unfold trimRight
  rw [List.reverse_reverse, trimLeft_idem]

theorem data_asString (l : Chars) : (l.asString).data = l := rfl

theorem renderBlock_data (e : CEntry)
    (hb : trimRight (normalizeNewlinesL e.body.data) = e.body.data) :
    (renderBlock e).data
      = "<!-- acta:comment\n".data ++ (metaChars e ++ (arrowNL ++ (e.body.data
          ++ (endMark ++ ('\n' :: '\n' :: []))))) := by
  simp only [renderBlock, formatEntryBlock, metaChars, tagLine, String.data_append,
    List.append_assoc, arrowNL]
  rw [data_asString, hb]
  rw [show ("\n".data ++ "<!-- /acta:comment -->\n\n".data : Chars)
      = endMark ++ ('\n' :: '\n' :: []) from rfl]

theorem stripWSNewline_meta (e : CEntry) (w : Chars) :
    stripWSNewline ('\n' :: (metaChars e ++ w)) = some (metaChars e ++ w) := rfl

theorem matchBlockAt_eq_of {t t1 t2 t3 m t4 body rest : Chars}
    (h1 : stripLit startLit t = some t1)
    (h2 : stripWSThenLit nameLit t1 = some t2)
    (h3 : stripWSNewline t2 = some t3)
    (h4 : splitFirst arrowNL t3 = some (m, t4))
    (h5 : findEnd t4 = some (body, rest)) :
    matchBlockAt t = some (m, body, rest) := by
  unfold matchBlockAt
  split
  · next heq => rw [heq] at h1; exact absurd h1 (by simp)
  · next u1 heq =>
    rw [heq] at h1
    injection h1 with h1e
    subst h1e
    split
    · next heq2 => rw [heq2] at h2; exact absurd h2 (by simp)
    · next u2 heq2 =>
      rw [heq2] at h2
      injection h2 with h2e
      subst h2e
      split
      · next heq3 => rw [heq3] at h3; exact absurd h3 (by simp)
      · next u3 heq3 =>
        rw [heq3] at h3
        injection h3 with h3e
        subst h3e
        split
        · next heq4 => rw [heq4] at h4; exact absurd h4 (by simp)
        · next um u4 heq4 =>
          rw [heq4] at h4
          injection h4 with h4e
          injection h4e with hm4 ht4
          subst hm4
          subst ht4
          split
          · next heq5 => rw [heq5] at h5; exact absurd h5 (by simp)
          · next ub ur heq5 =>
            rw [heq5] at h5
            injection h5 with h5e
            injection h5e with hb5 hr5
            rw [hb5, hr5]

theorem matchBlockAt_canonical (e : CEntry) (r : Chars)
    (hb : trimRight (normalizeNewlinesL e.body.data) = e.body.data)
    (hslash : occurs slashName e.body.data = false)
    (hmeta : occurs arrowNL (metaChars e) = false) :
    matchBlockAt ((renderBlock e).data ++ r)
      = some (metaChars e, e.body.data, '\n' :: '\n' :: r) := by
  have h0 : (renderBlock e).data ++ r
      = startLit ++ (" acta:comment\n".data ++ (metaChars e ++ (arrowNL ++ (e.body.data
          ++ (endMark ++ ('\n' :: '\n' :: r)))))) := by
    rw [renderBlock_data e hb]
    simp only [List.append_assoc, List.cons_append, List.nil_append]
    rfl
  rw [h0]
  exact matchBlockAt_eq_of
    (stripLit_append startLit _)
    (show stripWSThenLit nameLit (" acta:comment\n".data ++ (metaChars e ++ (arrowNL
        ++ (e.body.data ++ (endMark ++ ('\n' :: '\n' :: r))))))
      = some ('\n' :: (metaChars e ++ (arrowNL ++ (e.body.data
          ++ (endMark ++ ('\n' :: '\n' :: r)))))) from rfl)
    (stripWSNewline_meta e _)
    (splitFirst_arrowNL_canonical (metaChars e) _ hmeta)
    (findEnd_canonical e.body.data ('\n' :: '\n' :: r) hslash)

theorem asString_data_eq (s : String) : s.data.asString = s := rfl

theorem ne_empty_data {s : String} (h : s ≠ "") : s.data ≠ [] := by
  intro hd
  exact h ((show s = s.data.asString from rfl).trans (by rw [hd]; decide))

theorem trimLeft_length_le (t : Chars) : (trimLeft t).length ≤ t.length := by
  have h := wsSplit_eq t
  have h2 : t.length = (wsSplit t).1.length + (wsSplit t).2.length := by
    conv_lhs => rw [h]
    simp [List.length_append]
  unfold trimLeft
  omega

theorem trimRight_length_le (t : Chars) : (trimRight t).length ≤ t.length := by
  unfold trimRight
  rw [List.length_reverse]
  have h := trimLeft_length_le t.reverse
  simpa using h

theorem trimLeft_fixed_of_trimBoth {x : Chars} (h : trimBoth x = x) : trimLeft x = x := by
  have h1 : x.length ≤ (trimLeft x).length := by
    conv_lhs => rw [← h]
    exact trimRight_length_le (trimLeft x)
  have h2 := wsSplit_eq x
  have h3 : x.length = (wsSplit x).1.length + (wsSplit x).2.length := by
    conv_lhs => rw [h2]
    simp [List.length_append]
  have h4 : (wsSplit x).1.length = 0 := by
    unfold trimLeft at h1
    omega
  have h5 : (wsSplit x).1 = [] := List.length_eq_zero.mp h4
  unfold trimLeft
  conv_rhs => rw [h2, h5]
  simp

theorem trimRight_fixed_of_trimBoth {x : Chars} (h : trimBoth x = x) : trimRight x = x := by
  have h1 := trimLeft_fixed_of_trimBoth h
  unfold trimBoth at h
  rw [h1] at h
  exact h

theorem trimLeft_fixed_head {c : Char} {cs : Chars} (h : trimLeft (c :: cs) = c :: cs) :
    isWS c = false := by
  cases hc : isWS c with
  | false => rfl
  | true =>
    exfalso
    have h2 : trimLeft (c :: cs) = (wsSplit cs).2 := by
      unfold trimLeft
      simp only [wsSplit]
      rw [if_pos hc]
    rw [h2] at h
    have h3 := trimLeft_length_le cs
    unfold trimLeft at h3
    rw [h] at h3
    simp only [List.length_cons] at h3
    omega

theorem trimLeft_fixed_append {a : Chars} (b : Chars) (ha : trimLeft a = a) (hane : a ≠ []) :
    trimLeft (a ++ b) = a ++ b := by
  cases a with
  | nil => exact absurd rfl hane
  | cons c cs =>
    have hc := trimLeft_fixed_head ha
    show trimLeft (c :: (cs ++ b)) = c :: (cs ++ b)
    exact trimLeft_cons_nonws c (cs ++ b) hc

theorem trimRight_fixed_append (a : Chars) {b : Chars} (hb : trimRight b = b) (hbne : b ≠ []) :
    trimRight (a ++ b) = a ++ b := by
  have hb2 : trimLeft b.reverse = b.reverse := by
    have h3 : (trimLeft b.reverse).reverse.reverse = b.reverse := by
      rw [show (trimLeft b.reverse).reverse = trimRight b from rfl, hb]
    simpa using h3
  unfold trimRight
  rw [List.reverse_append]
  rw [trimLeft_fixed_append a.reverse hb2 (by simpa using hbne)]
  simp

theorem trimBoth_fixed_of_parts {x : Chars} (h1 : trimLeft x = x) (h2 : trimRight x = x) :
    trimBoth x = x := by
  unfold trimBoth
  rw [h1, h2]

theorem joinTags_ne_nil : ∀ (ts : List String), ts ≠ [] → (∀ t ∈ ts, t.data ≠ []) →
    (joinTags ts).data ≠ []
  | [], h, _ => absurd rfl h
  | [t], _, h2 => by
    simp only [joinTags]
    exact h2 t (by simp)
  | t :: t2 :: ts, _, h2 => by
    simp only [joinTags, String.data_append, List.append_assoc]
    intro he
    exact h2 t (by simp) (List.append_eq_nil.mp he).1

theorem joinTags_trim_fixed : ∀ (ts : List String),
    (∀ t ∈ ts, t.data ≠ [] ∧ trimBoth t.data = t.data) →
    trimBoth (joinTags ts).data = (joinTags ts).data
  | [], _ => rfl
  | [t], h => (h t (by simp)).2
  | t :: t2 :: ts, h => by
    have h1 := h t (by simp)
    have hrec := joinTags_trim_fixed (t2 :: ts) (fun u hu => h u (List.mem_cons_of_mem t hu))
    have hne : (joinTags (t2 :: ts)).data ≠ [] :=
      joinTags_ne_nil (t2 :: ts) (by simp)
        (fun u hu => (h u (List.mem_cons_of_mem t hu)).1)
    have hj : (joinTags (t :: t2 :: ts)).data
        = t.data ++ ([',', ' '] ++ (joinTags (t2 :: ts)).data) := by
      show (t ++ ", " ++ joinTags (t2 :: ts)).data = _
      simp only [String.data_append, List.append_assoc]
    rw [hj]
    apply trimBoth_fixed_of_parts
    · exact trimLeft_fixed_append _ (trimLeft_fixed_of_trimBoth h1.2) h1.1
    · apply trimRight_fixed_append
      · exact trimRight_fixed_append _ (trimRight_fixed_of_trimBoth hrec) hne
      · intro he
        exact absurd (List.append_eq_nil.mp he).1 (by decide)

theorem metaChars_decomp (e : CEntry) :
    metaChars e = ("id: ".data ++ e.id.data) ++ '\n'
      :: (("created: ".data ++ e.created.data) ++ '\n'
      :: (("created_ms: ".data ++ (toString e.cms).data) ++ '\n'
      :: (("tags: ".data ++ (tagLine e).data) ++ '\n' :: []))) := by
  simp only [metaChars, String.data_append, List.append_assoc, List.cons_append,
    List.nil_append]

theorem tagLine_chars (e : CEntry) {c : Char} (hc : c ∈ (tagLine e).data) :
    c = ' ' ∨ c = ',' ∨ isWS c = false := by
  rcases joinTags_chars _ hc with ⟨s, hs, hcs⟩ | h | h
  · rw [List.mem_filter] at hs
    rcases List.mem_map.mp hs.1 with ⟨raw, _, hraw⟩
    rw [← hraw] at hcs
    rcases normalizeTag_chars raw hcs with h2 | h2
    · exact Or.inl h2
    · exact Or.inr (Or.inr h2)
  · exact Or.inr (Or.inl h)
  · exact Or.inl h

theorem nl_not_mem_tagLine (e : CEntry) : '\n' ∉ (tagLine e).data := by
  intro h
  rcases tagLine_chars e h with h2 | h2 | h2
  · exact absurd h2 (by decide)
  · exact absurd h2 (by decide)
  · exact absurd h2 (by decide)

theorem gt_not_mem_tagLine (e : CEntry) (h : ∀ t ∈ e.tags, CleanTag t) :
    '>' ∉ (tagLine e).data := by
  intro hc
  rcases joinTags_chars _ hc with ⟨s, hs, hcs⟩ | h2 | h2
  · rw [List.mem_filter] at hs
    rcases List.mem_map.mp hs.1 with ⟨raw, hrawmem, hraw⟩
    have hct := h raw hrawmem
    rw [← hraw, cleanTag_normalizeTag_fixed hct] at hcs
    exact hct.2.2.2.2.2.2 hcs
  · exact absurd h2 (by decide)
  · exact absurd h2 (by decide)

theorem int_chars_ne (n : Int) {c : Char} (hd : c.isDigit = false) (hm : c ≠ '-') :
    c ∉ (toString n).data := by
  intro h
  rcases int_toString_chars n c h with h2 | h2
  · rw [h2] at hd
    exact absurd hd (by simp)
  · exact hm h2

theorem gt_not_mem_meta (e : CEntry) (hc : Clean e) : '>' ∉ metaChars e := by
  intro h
  rw [metaChars_decomp] at h
  simp only [List.mem_append, List.mem_cons] at h
  rcases h with (h | h) | h | (h | h) | h | (h | h) | h | (h | h) | h | h
  · exact absurd h (by decide)
  · exact hc.1.2.2.2.2 h
  · exact absurd h (by decide)
  · exact absurd h (by decide)
  · exact hc.2.1.2.2.2.2 h
  · exact absurd h (by decide)
  · exact absurd h (by decide)
  · exact int_chars_ne e.cms (by decide) (by decide) h
  · exact absurd h (by decide)
  · exact absurd h (by decide)
  · exact gt_not_mem_tagLine e hc.2.2.2.2.1 h
  · exact absurd h (by decide)
  · exact absurd h (by simp)

theorem meta_no_arrowNL (e : CEntry) (hc : Clean e) : occurs arrowNL (metaChars e) = false :=
  occurs_false_of_not_mem '>' (by decide) (gt_not_mem_meta e hc)

theorem trimRight_prefix (z : Chars) : z = trimRight z ++ (wsSplit z.reverse).1.reverse := by
  have h := wsSplit_eq z.reverse
  have h2 : z = ((wsSplit z.reverse).1 ++ (wsSplit z.reverse).2).reverse := by
    rw [← h, List.reverse_reverse]
  calc z = ((wsSplit z.reverse).1 ++ (wsSplit z.reverse).2).reverse := h2
    _ = (wsSplit z.reverse).2.reverse ++ (wsSplit z.reverse).1.reverse := by
        rw [List.reverse_append]
    _ = trimRight z ++ (wsSplit z.reverse).1.reverse := rfl

theorem trimBoth_idem (x : Chars) : trimBoth (trimBoth x) = trimBoth x := by
  show trimBoth (trimRight (trimLeft x)) = trimRight (trimLeft x)
  have hzfix : trimLeft (trimLeft x) = trimLeft x := trimLeft_idem x
  have hpre := trimRight_prefix (trimLeft x)
  cases htr : trimRight (trimLeft x) with
  | nil => rfl
  | cons c cs =>
    rw [htr] at hpre
    rw [hpre, List.cons_append] at hzfix
    have hc : isWS c = false := trimLeft_fixed_head hzfix
    have h9 : trimBoth (c :: cs) = c :: cs := by
      unfold trimBoth
      rw [trimLeft_cons_nonws c cs hc]
      have h8 := trimRight_idem (trimLeft x)
      rw [htr] at h8
      exact h8
    exact h9

theorem normalizeTag_trim_fixed (raw : String) :
    trimBoth (normalizeTag raw).data = (normalizeTag raw).data := by
  have h : (normalizeTag raw).data = trimBoth (collapseWS (stripMarker raw.data)) := rfl
  rw [h]
  exact trimBoth_idem _

theorem tagLine_trim_fixed (e : CEntry) :
    trimBoth (tagLine e).data = (tagLine e).data := by
  apply joinTags_trim_fixed
  intro u hu
  rw [List.mem_filter] at hu
  rcases List.mem_map.mp hu.1 with ⟨raw, _, hraw⟩
  constructor
  · exact ne_empty_data (by simpa using hu.2)
  · rw [← hraw]
    exact normalizeTag_trim_fixed raw

theorem int_chars_not_ws (n : Int) : ∀ c ∈ (toString n).data, isWS c = false := by
  intro c hc
  rcases int_toString_chars n c hc with h | h
  · cases hw : isWS c with
    | false => rfl
    | true =>
      exfalso
      simp only [isWS, Bool.or_eq_true, decide_eq_true_eq] at hw
      rcases hw with ((((h2 | h2) | h2) | h2) | h2) | h2 <;> subst h2 <;>
        exact absurd h (by decide)
  · rw [h]
    decide

theorem not_mem_append {c : Char} {a b : Chars} (ha : c ∉ a) (hb : c ∉ b) : c ∉ a ++ b := by
  intro h
  rcases List.mem_append.mp h with h2 | h2
  · exact ha h2
  · exact hb h2

theorem nl_not_mem_int (n : Int) : '\n' ∉ (toString n).data :=
  int_chars_ne n (by decide) (by decide)

theorem splitOnNL_metaChars (e : CEntry)
    (hid : '\n' ∉ e.id.data) (hcr : '\n' ∉ e.created.data) :
    splitOnNL (metaChars e)
      = [("id: ".data ++ e.id.data), ("created: ".data ++ e.created.data),
         ("created_ms: ".data ++ (toString e.cms).data),
         ("tags: ".data ++ (tagLine e).data), []] := by
  rw [metaChars_decomp]
  rw [splitOnNL_append _ _ (not_mem_append (by decide) hid)]
  rw [splitOnNL_append _ _ (not_mem_append (by decide) hcr)]
  rw [splitOnNL_append _ _ (not_mem_append (by decide) (nl_not_mem_int e.cms))]
  rw [splitOnNL_append _ _ (not_mem_append (by decide) (nl_not_mem_tagLine e))]
  rfl

theorem parseMetaLine_canon_id (v : Chars) (hv : trimBoth v = v) :
    parseMetaLine ('i' :: 'd' :: ':' :: ' ' :: v) = some ("id", v.asString) := by
  have h0 : parseMetaLine ('i' :: 'd' :: ':' :: ' ' :: v)
      = some (['i', 'd'].asString, (trimBoth (' ' :: v)).asString) := rfl
  rw [h0, trimBoth_cons_space, hv]
  rfl

theorem parseMetaLine_canon_created (v : Chars) (hv : trimBoth v = v) :
    parseMetaLine ('c' :: 'r' :: 'e' :: 'a' :: 't' :: 'e' :: 'd' :: ':' :: ' ' :: v)
      = some ("created", v.asString) := by
  have h0 : parseMetaLine ('c' :: 'r' :: 'e' :: 'a' :: 't' :: 'e' :: 'd' :: ':' :: ' ' :: v)
      = some (['c', 'r', 'e', 'a', 't', 'e', 'd'].asString, (trimBoth (' ' :: v)).asString) := rfl
  rw [h0, trimBoth_cons_space, hv]
  rfl

theorem parseMetaLine_canon_ms (v : Chars) (hv : trimBoth v = v) :
    parseMetaLine
        ('c' :: 'r' :: 'e' :: 'a' :: 't' :: 'e' :: 'd' :: '_' :: 'm' :: 's' :: ':' :: ' ' :: v)
      = some ("created_ms", v.asString) := by
  have h0 : parseMetaLine
        ('c' :: 'r' :: 'e' :: 'a' :: 't' :: 'e' :: 'd' :: '_' :: 'm' :: 's' :: ':' :: ' ' :: v)
      = some (['c', 'r', 'e', 'a', 't', 'e', 'd', '_', 'm', 's'].asString,
          (trimBoth (' ' :: v)).asString) := rfl
  rw [h0, trimBoth_cons_space, hv]
  rfl

theorem parseMetaLine_canon_tags (v : Chars) (hv : trimBoth v = v) :
    parseMetaLine ('t' :: 'a' :: 'g' :: 's' :: ':' :: ' ' :: v) = some ("tags", v.asString) := by
  have h0 : parseMetaLine ('t' :: 'a' :: 'g' :: 's' :: ':' :: ' ' :: v)
      = some (['t', 'a', 'g', 's'].asString, (trimBoth (' ' :: v)).asString) := rfl
  rw [h0, trimBoth_cons_space, hv]
  rfl

theorem metaPairs_canonical (e : CEntry)
    (hid : '\n' ∉ e.id.data) (hidt : trimBoth e.id.data = e.id.data)
    (hcr : '\n' ∉ e.created.data) (hcrt : trimBoth e.created.data = e.created.data) :
    metaPairs (metaChars e)
      = [("id", e.id), ("created", e.created), ("created_ms", toString e.cms),
         ("tags", tagLine e)] := by
  unfold metaPairs
  rw [splitOnNL_metaChars e hid hcr]
  have e1 := parseMetaLine_canon_id e.id.data hidt
  have e2 := parseMetaLine_canon_created e.created.data hcrt
  have e3 := parseMetaLine_canon_ms (toString e.cms).data
    (trimBoth_fixed_of_nonws _ (int_chars_not_ws e.cms))
  have e4 := parseMetaLine_canon_tags (tagLine e).data (tagLine_trim_fixed e)
  have e5 : parseMetaLine ([] : Chars) = none := rfl
  simp [List.filterMap_cons, e1, e2, e3, e4, e5, asString_data_eq]

theorem metaGetD_canon_id (a b c d : String) :
    metaGetD [("id", a), ("created", b), ("created_ms", c), ("tags", d)] "id" = a := rfl

theorem metaGetD_canon_created (a b c d : String) :
    metaGetD [("id", a), ("created", b), ("created_ms", c), ("tags", d)] "created" = b := rfl

theorem metaGetD_canon_ms (a b c d : String) :
    metaGetD [("id", a), ("created", b), ("created_ms", c), ("tags", d)] "created_ms" = c := rfl

theorem metaGetD_canon_tags (a b c d : String) :
    metaGetD [("id", a), ("created", b), ("created_ms", c), ("tags", d)] "tags" = d := rfl

theorem splitTagsL_no_sep : ∀ (a : Chars), ',' ∉ a → '、' ∉ a → splitTagsL a = [a]
  | [], _, _ => rfl
  | c :: a2, h1, h2 => by
    have hc1 : c ≠ ',' := fun h => h1 (by simp [h])
    have hc2 : c ≠ '、' := fun h => h2 (by simp [h])
    unfold splitTagsL
    rw [if_neg (by simp [hc1, hc2])]
    rw [splitTagsL_no_sep a2 (fun h => h1 (by simp [h])) (fun h => h2 (by simp [h]))]

theorem splitTagsL_append_comma : ∀ (a b : Chars), ',' ∉ a → '、' ∉ a →
    splitTagsL (a ++ ',' :: b) = a :: splitTagsL b
  | [], b, _, _ => by
    show splitTagsL (',' :: b) = [] :: splitTagsL b
    rfl
  | c :: a2, b, h1, h2 => by
    have hc1 : c ≠ ',' := fun h => h1 (by simp [h])
    have hc2 : c ≠ '、' := fun h => h2 (by simp [h])
    show splitTagsL (c :: (a2 ++ ',' :: b)) = (c :: a2) :: splitTagsL b
    simp only [splitTagsL]
    rw [if_neg (by simp [hc1, hc2])]
    rw [splitTagsL_append_comma a2 b (fun h => h1 (by simp [h])) (fun h => h2 (by simp [h]))]

theorem splitTagsL_cons_nonsep {c : Char} (x : Chars) {l : Chars} {ls : List Chars}
    (hc1 : c ≠ ',') (hc2 : c ≠ '、') (h : splitTagsL x = l :: ls) :
    splitTagsL (c :: x) = (c :: l) :: ls := by
  simp only [splitTagsL]
  rw [if_neg (by simp [hc1, hc2]), h]

theorem splitTagsL_joinTags : ∀ (t2 : String) (ts : List String),
    (∀ u ∈ t2 :: ts, ',' ∉ u.data ∧ '、' ∉ u.data) →
    splitTagsL (joinTags (t2 :: ts)).data = t2.data :: (ts.map (fun u => ' ' :: u.data))
  | t2, [], h => by
    show splitTagsL t2.data = [t2.data]
    exact splitTagsL_no_sep t2.data (h t2 (by simp)).1 (h t2 (by simp)).2
  | t2, t3 :: ts, h => by
    have hrec := splitTagsL_joinTags t3 ts (fun u hu => h u (List.mem_cons_of_mem t2 hu))
    have hj : (joinTags (t2 :: t3 :: ts)).data
        = t2.data ++ ',' :: (' ' :: (joinTags (t3 :: ts)).data) := by
      show (t2 ++ ", " ++ joinTags (t3 :: ts)).data = _
      simp only [String.data_append, List.append_assoc]
      rfl
    rw [hj]
    rw [splitTagsL_append_comma t2.data _ (h t2 (by simp)).1 (h t2 (by simp)).2]
    cases hx : splitTagsL (joinTags (t3 :: ts)).data with
    | nil => rw [hx] at hrec; exact absurd hrec.symm (by simp)
    | cons l ls =>
      rw [hx] at hrec
      injection hrec with hl hls
      rw [splitTagsL_cons_nonsep _ (by decide) (by decide) hx, hl, hls]
      simp

theorem jsSetDedupAux_nodup : ∀ (seen : List String) (l : List String), l.Nodup →
    (∀ x ∈ l, x ∉ seen) → jsSetDedupAux seen l = l
  | _, [], _, _ => rfl
  | seen, x :: xs, h, hd => by
    have h2 := List.nodup_cons.mp h
    simp only [jsSetDedupAux]
    rw [if_neg (hd x (by simp))]
    rw [jsSetDedupAux_nodup (x :: seen) xs h2.2 ?_]
    intro y hy hmem
    rcases List.mem_cons.mp hmem with h3 | h3
    · rw [h3] at hy
      exact h2.1 hy
    · exact hd y (List.mem_cons_of_mem x hy) h3

theorem jsSetDedup_nodup (l : List String) (h : l.Nodup) : jsSetDedup l = l :=
  jsSetDedupAux_nodup [] l h (by simp)

theorem filter_ne_empty_id : ∀ (l : List String), (∀ t ∈ l, t ≠ "") →
    l.filter (fun t => t ≠ "") = l
  | [], _ => rfl
  | x :: xs, h => by
    rw [List.filter_cons]
    rw [if_pos (by simpa using h x (by simp))]
    rw [filter_ne_empty_id xs (fun t ht => h t (List.mem_cons_of_mem x ht))]

theorem collapseWSAux_cons_nonws (b : Bool) (c : Char) (cs : Chars) (hc : isWS c = false) :
    collapseWSAux b (c :: cs) = c :: collapseWSAux false cs := by
  simp only [collapseWSAux]
  rw [if_neg (by simp [hc])]

theorem normalizeTag_space (u : String) (hu : CleanTag u) :
    normalizeTag (' ' :: u.data).asString = u := by
  have hcoll : collapseWS (' ' :: u.data) = ' ' :: collapseWS u.data := by
    cases hcons : u.data with
    | nil => rfl
    | cons c cs =>
      have hc : isWS c = false := by
        have h1 := trimLeft_fixed_of_trimBoth hu.2.2.2.1
        rw [hcons] at h1
        exact trimLeft_fixed_head h1
      show collapseWSAux false (' ' :: c :: cs) = ' ' :: collapseWSAux false (c :: cs)
      rw [show collapseWSAux false (' ' :: c :: cs)
          = ' ' :: collapseWSAux true (c :: cs) from rfl]
      rw [collapseWSAux_cons_nonws true c cs hc, collapseWSAux_cons_nonws false c cs hc]
  show (trimBoth (collapseWS (stripMarker ((' ' :: u.data).asString).data))).asString = u
  rw [data_asString]
  rw [show stripMarker (' ' :: u.data) = ' ' :: u.data from rfl]
  rw [hcoll, hu.2.2.1, trimBoth_cons_space, hu.2.2.2.1]
  exact asString_data_eq u

theorem tags_roundtrip (ts : List String) (h : ∀ t ∈ ts, CleanTag t) (hnd : ts.Nodup) :
    parseTags (joinTags ts) = ts := by
  cases ts with
  | nil => rfl
  | cons t ts2 =>
    unfold parseTags
    have htb := joinTags_trim_fixed (t :: ts2)
      (fun u hu => ⟨ne_empty_data (h u hu).1, (h u hu).2.2.2.1⟩)
    rw [if_neg (by
      rw [htb]
      exact joinTags_ne_nil _ (by simp) (fun u hu => ne_empty_data (h u hu).1))]
    rw [splitTagsL_joinTags t ts2
      (fun u hu => ⟨(h u hu).2.2.2.2.1, (h u hu).2.2.2.2.2.1⟩)]
    rw [List.map_cons, List.map_map]
    rw [show normalizeTag (t.data.asString) = t from by
      rw [asString_data_eq]
      exact cleanTag_normalizeTag_fixed (h t (by simp))]
    have hmap : ts2.map ((fun p => normalizeTag p.asString) ∘ (fun u => ' ' :: u.data))
        = ts2.map id := by
      apply List.map_congr_left
      intro u hu
      show normalizeTag (' ' :: u.data).asString = id u
      exact normalizeTag_space u (h u (List.mem_cons_of_mem t hu))
    rw [hmap, List.map_id]
    rw [filter_ne_empty_id (t :: ts2) (fun u hu => (h u hu).1)]
    exact jsSetDedup_nodup (t :: ts2) hnd

theorem ne_empty_of_data_ne {s : String} (h : s.data ≠ []) : s ≠ "" := fun he =>
  h (by rw [he])

theorem tagLine_clean (e : CEntry) (htags : ∀ t ∈ e.tags, CleanTag t) :
    tagLine e = joinTags e.tags := by
  unfold tagLine
  have hm2 : e.tags.map normalizeTag = e.tags := by
    have h3 : e.tags.map normalizeTag = e.tags.map id :=
      List.map_congr_left (fun t ht => cleanTag_normalizeTag_fixed (htags t ht))
    rw [h3, List.map_id]
  rw [hm2, filter_ne_empty_id e.tags (fun t ht => (htags t ht).1)]

theorem entryOfMatch_canonical (e : CEntry) (idx : Nat) (date src : String) (hc : Clean e) :
    entryOfMatch (metaChars e) e.body.data idx date src = toEntry date src e := by
  obtain ⟨hid, hcr, hcms0, hjs, htags, hnd, hbody⟩ := hc
  have hmp := metaPairs_canonical e hid.2.2.1 hid.2.1 hcr.2.2.1 hcr.2.1
  have hidne : e.id ≠ "" := ne_empty_of_data_ne hid.1
  have hcrne : e.created ≠ "" := ne_empty_of_data_ne hcr.1
  have htl := tagLine_clean e htags
  have hbfix : trimRight e.body.data = e.body.data := by
    conv_lhs => rw [← hbody.1]
    rw [trimRight_idem, hbody.1]
  simp only [entryOfMatch, toEntry, hmp, metaGetD_canon_id, metaGetD_canon_created,
    metaGetD_canon_ms, metaGetD_canon_tags, orElseStr, jsOrMs, hjs, htl, hbfix,
    asString_data_eq, tags_roundtrip e.tags htags hnd, if_neg hidne, if_neg hcrne,
    if_neg hcms0]

theorem metaGetD_id_canonical (e : CEntry) (hc : Clean e) :
    metaGetD (metaPairs (metaChars e)) "id" = e.id := by
  rw [metaPairs_canonical e hc.1.2.2.1 hc.1.2.1 hc.2.1.2.2.1 hc.2.1.2.1]
  exact metaGetD_canon_id _ _ _ _

theorem metaGetD_created_canonical (e : CEntry) (hc : Clean e) :
    metaGetD (metaPairs (metaChars e)) "created" = e.created := by
  rw [metaPairs_canonical e hc.1.2.2.1 hc.1.2.1 hc.2.1.2.2.1 hc.2.1.2.1]
  exact metaGetD_canon_created _ _ _ _

theorem metaGetD_ms_canonical (e : CEntry) (hc : Clean e) :
    metaGetD (metaPairs (metaChars e)) "created_ms" = toString e.cms := by
  rw [metaPairs_canonical e hc.1.2.2.1 hc.1.2.1 hc.2.1.2.2.1 hc.2.1.2.1]
  exact metaGetD_canon_ms _ _ _ _

theorem renderBlocks_no_cr : ∀ (es : List CEntry), (∀ e ∈ es, Clean e) →
    '\r' ∉ (renderBlocks es).data
  | [], _ => by simp [renderBlocks]
  | e :: es2, h => by
    show '\r' ∉ (renderBlock e ++ renderBlocks es2).data
    rw [String.data_append]
    exact not_mem_append
      (formatEntryBlock_no_cr _ _ _ _ _ (h e (by simp)).1.2.2.2.1 (h e (by simp)).2.1.2.2.2.1)
      (renderBlocks_no_cr es2 (fun u hu => h u (List.mem_cons_of_mem e hu)))

theorem renderStore_no_cr (pre : String) (es : List CEntry) (hpre : '\r' ∉ pre.data)
    (hes : ∀ e ∈ es, Clean e) : '\r' ∉ (renderStore pre es).data := by
  show '\r' ∉ (pre ++ renderBlocks es).data
  rw [String.data_append]
  exact not_mem_append hpre (renderBlocks_no_cr es hes)

theorem renderBlock_head (e : CEntry) :
    (renderBlock e).data = '<' :: (renderBlock e).data.tail := rfl

theorem renderBlocks_shape (es : List CEntry) :
    (renderBlocks es).data = [] ∨ ∃ z, (renderBlocks es).data = '<' :: z := by
  cases es with
  | nil => exact Or.inl rfl
  | cons e es2 =>
    right
    refine ⟨(renderBlock e).data.tail ++ (renderBlocks es2).data, ?_⟩
    show (renderBlock e ++ renderBlocks es2).data = _
    rw [String.data_append]
    conv_lhs => rw [renderBlock_head e]
    rfl

theorem renderBlocks_len : ∀ (es : List CEntry), es.length ≤ (renderBlocks es).data.length
  | [] => by simp [renderBlocks]
  | e :: es2 => by
    show es2.length + 1 ≤ (renderBlock e ++ renderBlocks es2).data.length
    rw [String.data_append, List.length_append]
    have h1 : 1 ≤ (renderBlock e).data.length := by
      rw [renderBlock_head e]
      simp
    have h2 := renderBlocks_len es2
    omega

theorem dropNLs_two (x : Chars) (hx : x = [] ∨ ∃ z, x = '<' :: z) :
    (dropNLs ('\n' :: '\n' :: x)).2 = x := by
  rcases hx with h | ⟨z, h⟩
  · rw [h]
    rfl
  · rw [h]
    rfl

theorem extract_full (g x rest : Chars) :
    ((g ++ (x ++ rest)).drop g.length).take ((g ++ (x ++ rest)).length - g.length - rest.length)
      = x := by
  rw [List.drop_left]
  have hlen : (g ++ (x ++ rest)).length - g.length - rest.length = x.length := by
    simp only [List.length_append]
    omega
  rw [hlen]
  exact List.take_left x rest

theorem parseEntriesAux_step {date src : String} {f idx : Nat} {t g m b rest : Chars}
    (h : findBlock t = some (g, m, b, rest)) :
    parseEntriesAux date src (f + 1) t idx
      = entryOfMatch m b (idx + g.length) date src ::
          parseEntriesAux date src f rest (idx + (t.length - rest.length)) := by
  simp only [parseEntriesAux]
  rw [h]

theorem blockShape_aux (e : CEntry) (x : Chars)
    (hb : trimRight (normalizeNewlinesL e.body.data) = e.body.data) :
    (renderBlock e).data ++ x
      = '<' :: ("!-- acta:comment\n".data ++ (metaChars e ++ (arrowNL ++ (e.body.data
          ++ (endMark ++ ('\n' :: '\n' :: x)))))) := by
  rw [renderBlock_data e hb]
  simp only [List.append_assoc, List.cons_append, List.nil_append]

theorem parseEntriesAux_canonical : ∀ (es : List CEntry) (g : Chars) (fuel idx : Nat)
    (date src : String), occurs startLit g = false → (∀ e ∈ es, Clean e) →
    es.length < fuel →
    parseEntriesAux date src fuel (g ++ (renderBlocks es).data) idx
      = es.map (toEntry date src)
  | [], g, fuel, idx, date, src, hocc, _, hfuel => by
    cases fuel with
    | zero => omega
    | succ f =>
      show parseEntriesAux date src (f + 1) (g ++ []) idx = []
      rw [List.append_nil]
      simp only [parseEntriesAux]
      rw [findBlock_none g hocc]
  | e :: es2, g, fuel, idx, date, src, hocc, hes, hfuel => by
    cases fuel with
    | zero => omega
    | succ f =>
      have hcl : Clean e := hes e (by simp)
      have hes2 : ∀ u ∈ es2, Clean u := fun u hu => hes u (List.mem_cons_of_mem e hu)
      have hb : trimRight (normalizeNewlinesL e.body.data) = e.body.data := hcl.2.2.2.2.2.2.1
      have hmatch := matchBlockAt_canonical e ((renderBlocks es2).data) hb hcl.2.2.2.2.2.2.2
        (meta_no_arrowNL e hcl)
      have hshape := blockShape_aux e ((renderBlocks es2).data) hb
      rw [hshape] at hmatch
      have hfb := findBlock_gap g _ (metaChars e) e.body.data
        ('\n' :: '\n' :: (renderBlocks es2).data) hocc hmatch
      show parseEntriesAux date src (f + 1)
        (g ++ (renderBlock e ++ renderBlocks es2).data) idx = _
      rw [String.data_append, hshape]
      rw [parseEntriesAux_step hfb]
      rw [List.map_cons]
      rw [entryOfMatch_canonical e _ date src hcl]
      rw [show ('\n' :: '\n' :: (renderBlocks es2).data)
          = ['\n', '\n'] ++ (renderBlocks es2).data from rfl]
      rw [parseEntriesAux_canonical es2 ['\n', '\n'] f _ date src (by decide) hes2
          (by simp at hfuel; omega)]

theorem parseEntriesFromText_canonical (pre : String) (es : List CEntry) (date src : String)
    (hcrp : '\r' ∉ pre.data) (hpre : occurs startLit pre.data = false)
    (hes : ∀ e ∈ es, Clean e) :
    parseEntriesFromText (renderStore pre es) date src = es.map (toEntry date src) := by
  unfold parseEntriesFromText
  have hnorm : normalizeNewlinesL (renderStore pre es).data = (renderStore pre es).data :=
    normalizeNewlinesL_fixed (renderStore_no_cr pre es hcrp hes)
  rw [hnorm]
  have hdata : (renderStore pre es).data = pre.data ++ (renderBlocks es).data := by
    show (pre ++ renderBlocks es).data = _
    rw [String.data_append]
  rw [hdata]
  apply parseEntriesAux_canonical es pre.data _ 0 date src hpre hes
  have h2 := renderBlocks_len es
  simp only [List.length_append]
  omega

theorem removeAux_step {tid : String} {f : Nat} {t g m b rest0 : Chars} {ch : Bool}
    {acc : Chars} (h : findBlock t = some (g, m, b, rest0)) :
    removeAux tid (f + 1) t ch acc
      = (if metaGetD (metaPairs m) "id" = tid
          then removeAux tid f (dropNLs rest0).2 true (acc ++ g)
          else removeAux tid f (dropNLs rest0).2 ch
            (acc ++ g ++ ((t.drop g.length).take
              (t.length - g.length - (dropNLs rest0).2.length)))) := by
  simp only [removeAux]
  rw [h]

theorem removeAux_canonical : ∀ (es : List CEntry) (g acc : Chars) (fuel : Nat)
    (tid : String) (ch : Bool), occurs startLit g = false → (∀ e ∈ es, Clean e) →
    es.length < fuel →
    removeAux tid fuel (g ++ (renderBlocks es).data) ch acc
      = ((ch || es.any (fun e => e.id = tid)),
         acc ++ (g ++ (renderBlocks (es.filter (fun e => e.id ≠ tid))).data))
  | [], g, acc, fuel, tid, ch, hocc, _, hfuel => by
    cases fuel with
    | zero => omega
    | succ f =>
      show removeAux tid (f + 1) (g ++ []) ch acc = _
      rw [List.append_nil]
      simp only [removeAux]
      rw [findBlock_none g hocc]
      simp [renderBlocks]
  | e :: es2, g, acc, fuel, tid, ch, hocc, hes, hfuel => by
    cases fuel with
    | zero => omega
    | succ f =>
      have hcl : Clean e := hes e (by simp)
      have hes2 : ∀ u ∈ es2, Clean u := fun u hu => hes u (List.mem_cons_of_mem e hu)
      have hb : trimRight (normalizeNewlinesL e.body.data) = e.body.data := hcl.2.2.2.2.2.2.1
      have hmatch := matchBlockAt_canonical e ((renderBlocks es2).data) hb hcl.2.2.2.2.2.2.2
        (meta_no_arrowNL e hcl)
      have hshape := blockShape_aux e ((renderBlocks es2).data) hb
      rw [hshape] at hmatch
      have hfb := findBlock_gap g _ (metaChars e) e.body.data
        ('\n' :: '\n' :: (renderBlocks es2).data) hocc hmatch
      show removeAux tid (f + 1) (g ++ (renderBlock e ++ renderBlocks es2).data) ch acc = _
      rw [String.data_append, hshape]
      rw [removeAux_step hfb]
      rw [dropNLs_two _ (renderBlocks_shape es2)]
      rw [metaGetD_id_canonical e hcl]
      rw [← hshape]
      rw [extract_full g ((renderBlock e).data) ((renderBlocks es2).data)]
      by_cases hcase : e.id = tid
      · rw [if_pos hcase]
        have hrec := removeAux_canonical es2 [] (acc ++ g) f tid true (by decide) hes2
          (by simp at hfuel; omega)
        rw [List.nil_append] at hrec
        rw [hrec]
        have hani : (e :: es2).any (fun u => u.id = tid) = true := by
          simp [List.any_cons, hcase]
        have hfil : (e :: es2).filter (fun u => u.id ≠ tid)
            = es2.filter (fun u => u.id ≠ tid) := by
          rw [List.filter_cons, if_neg (by simp [hcase])]
        rw [hani, hfil]
        simp [List.append_assoc]
      · rw [if_neg hcase]
        have hrec := removeAux_canonical es2 [] (acc ++ g ++ (renderBlock e).data) f tid ch
          (by decide) hes2 (by simp at hfuel; omega)
        rw [List.nil_append] at hrec
        rw [hrec]
        have hani : (e :: es2).any (fun u => u.id = tid) = es2.any (fun u => u.id = tid) := by
          simp [List.any_cons, hcase]
        have hfil : (e :: es2).filter (fun u => u.id ≠ tid)
            = e :: es2.filter (fun u => u.id ≠ tid) := by
          rw [List.filter_cons, if_pos (by simp [hcase])]
        rw [hani, hfil]
        have hrb : (renderBlocks (e :: es2.filter (fun u => u.id ≠ tid))).data
            = (renderBlock e).data
                ++ (renderBlocks (es2.filter (fun u => u.id ≠ tid))).data := by
          show (renderBlock e ++ renderBlocks (es2.filter (fun u => u.id ≠ tid))).data = _
          rw [String.data_append]
        rw [hrb]
        simp [List.append_assoc]

theorem removeEntryFromText_canonical (pre : String) (es : List CEntry) (tid : String)
    (hcrp : '\r' ∉ pre.data) (hpre : occurs startLit pre.data = false)
    (hes : ∀ e ∈ es, Clean e) :
    removeEntryFromText (renderStore pre es) tid
      = (es.any (fun e => e.id = tid),
         renderStore pre (es.filter (fun e => e.id ≠ tid))) := by
  simp only [removeEntryFromText]
  rw [normalizeNewlinesL_fixed (renderStore_no_cr pre es hcrp hes)]
  rw [show (renderStore pre es).data = pre.data ++ (renderBlocks es).data from by
    show (pre ++ renderBlocks es).data = _
    rw [String.data_append]]
  rw [removeAux_canonical es pre.data [] _ tid false hpre hes (by
    have h2 := renderBlocks_len es
    simp only [List.length_append]
    omega)]
  rw [show (([] : Chars)
        ++ (pre.data ++ (renderBlocks (es.filter (fun e => e.id ≠ tid))).data))
      = (renderStore pre (es.filter (fun e => e.id ≠ tid))).data from by
    rw [List.nil_append]
    show _ = (pre ++ renderBlocks _).data
    rw [String.data_append]]
  rw [asString_data_eq]
  simp

theorem str_ext {s t : String} (h : s.data = t.data) : s = t :=
  (asString_data_eq s).symm.trans ((congrArg List.asString h).trans (asString_data_eq t))

theorem renderBlocks_snoc : ∀ (es : List CEntry) (e : CEntry),
    renderBlocks (es ++ [e]) = renderBlocks es ++ renderBlock e
  | [], e => by
    apply str_ext
    show (renderBlock e ++ renderBlocks []).data = (renderBlocks [] ++ renderBlock e).data
    rw [String.data_append, String.data_append]
    simp [renderBlocks]
  | e2 :: es2, e => by
    show renderBlock e2 ++ renderBlocks (es2 ++ [e])
      = (renderBlock e2 ++ renderBlocks es2) ++ renderBlock e
    rw [renderBlocks_snoc es2 e]
    apply str_ext
    simp [String.data_append, List.append_assoc]

theorem renderStore_snoc (pre : String) (es : List CEntry) (e : CEntry) :
    renderStore pre (es ++ [e]) = renderStore pre es ++ renderBlock e := by
  unfold renderStore
  rw [renderBlocks_snoc]
  apply str_ext
  simp [String.data_append, List.append_assoc]

instance instDecidableCleanField (s : String) : Decidable (CleanField s) := by
  unfold CleanField
  infer_instance

instance instDecidableCleanTag (t : String) : Decidable (CleanTag t) := by
  unfold CleanTag
  infer_instance

instance instDecidableCleanBody (b : String) : Decidable (CleanBody b) := by
  unfold CleanBody
  infer_instance

instance instDecidableClean (e : CEntry) : Decidable (Clean e) := by
  unfold Clean
  infer_instance

theorem updateAux_step {tid nb : String} {nt : List String} {f : Nat}
    {t g m b rest0 : Chars} {ch : Bool} {acc : Chars}
    (h : findBlock t = some (g, m, b, rest0)) :
    updateAux tid nb nt (f + 1) t ch acc
      = (if metaGetD (metaPairs m) "id" = tid
          then updateAux tid nb nt f (dropNLs rest0).2 true
            (acc ++ g ++ (formatEntryBlock tid (metaGetD (metaPairs m) "created")
              (jsOrMs (jsNumber (metaGetD (metaPairs m) "created_ms"))
                (jsOrMs (some (parseCreatedToMs (metaGetD (metaPairs m) "created"))) 0))
              nt nb).data)
          else updateAux tid nb nt f (dropNLs rest0).2 ch
            (acc ++ g ++ ((t.drop g.length).take
              (t.length - g.length - (dropNLs rest0).2.length)))) := by
  simp only [updateAux]
  rw [h]

theorem updateAux_canonical : ∀ (es : List CEntry) (g acc : Chars) (fuel : Nat)
    (tid nb : String) (nt : List String) (ch : Bool),
    occurs startLit g = false → (∀ e ∈ es, Clean e) → es.length < fuel →
    updateAux tid nb nt fuel (g ++ (renderBlocks es).data) ch acc
      = ((ch || es.any (fun e => e.id = tid)),
         acc ++ (g ++ (renderBlocks (es.map (fun e =>
           if e.id = tid then ⟨e.id, e.created, e.cms, nt, nb⟩ else e))).data))
  | [], g, acc, fuel, tid, nb, nt, ch, hocc, _, hfuel => by
    cases fuel with
    | zero => omega
    | succ f =>
      show updateAux tid nb nt (f + 1) (g ++ []) ch acc = _
      rw [List.append_nil]
      simp only [updateAux]
      rw [findBlock_none g hocc]
      simp [renderBlocks]
  | e :: es2, g, acc, fuel, tid, nb, nt, ch, hocc, hes, hfuel => by
    cases fuel with
    | zero => omega
    | succ f =>
      have hcl : Clean e := hes e (by simp)
      have hes2 : ∀ u ∈ es2, Clean u := fun u hu => hes u (List.mem_cons_of_mem e hu)
      have hb : trimRight (normalizeNewlinesL e.body.data) = e.body.data := hcl.2.2.2.2.2.2.1
      have hmatch := matchBlockAt_canonical e ((renderBlocks es2).data) hb hcl.2.2.2.2.2.2.2
        (meta_no_arrowNL e hcl)
      have hshape := blockShape_aux e ((renderBlocks es2).data) hb
      rw [hshape] at hmatch
      have hfb := findBlock_gap g _ (metaChars e) e.body.data
        ('\n' :: '\n' :: (renderBlocks es2).data) hocc hmatch
      show updateAux tid nb nt (f + 1) (g ++ (renderBlock e ++ renderBlocks es2).data) ch acc
        = _
      rw [String.data_append, hshape]
      rw [updateAux_step hfb]
      rw [dropNLs_two _ (renderBlocks_shape es2)]
      rw [metaGetD_id_canonical e hcl, metaGetD_created_canonical e hcl,
        metaGetD_ms_canonical e hcl]
      rw [hcl.2.2.2.1]
      rw [show jsOrMs (some e.cms) (jsOrMs (some (parseCreatedToMs e.created)) 0) = e.cms from
        by simp [jsOrMs, hcl.2.2.1]]
      rw [← hshape]
      rw [extract_full g ((renderBlock e).data) ((renderBlocks es2).data)]
      by_cases hcase : e.id = tid
      · rw [if_pos hcase]
        have hblk : (formatEntryBlock tid e.created e.cms nt nb).data
            = (renderBlock ⟨e.id, e.created, e.cms, nt, nb⟩).data := by
          show _ = (formatEntryBlock e.id e.created e.cms nt nb).data
          rw [hcase]
        rw [hblk]
        have hrec := updateAux_canonical es2 []
          (acc ++ g ++ (renderBlock ⟨e.id, e.created, e.cms, nt, nb⟩).data) f tid nb nt true
          (by decide) hes2 (by simp at hfuel; omega)
        rw [List.nil_append] at hrec
        rw [hrec]
        have hani : (e :: es2).any (fun u => u.id = tid) = true := by
          simp [List.any_cons, hcase]
        have hmapc : (e :: es2).map (fun u =>
              if u.id = tid then (⟨u.id, u.created, u.cms, nt, nb⟩ : CEntry) else u)
            = (⟨e.id, e.created, e.cms, nt, nb⟩ : CEntry) :: es2.map (fun u =>
              if u.id = tid then (⟨u.id, u.created, u.cms, nt, nb⟩ : CEntry) else u) := by
          rw [List.map_cons, if_pos hcase]
        rw [hani, hmapc]
        have hrb : (renderBlocks ((⟨e.id, e.created, e.cms, nt, nb⟩ : CEntry)
              :: es2.map (fun u =>
                if u.id = tid then (⟨u.id, u.created, u.cms, nt, nb⟩ : CEntry) else u))).data
            = (renderBlock (⟨e.id, e.created, e.cms, nt, nb⟩ : CEntry)).data
                ++ (renderBlocks (es2.map (fun u =>
                  if u.id = tid then (⟨u.id, u.created, u.cms, nt, nb⟩ : CEntry) else u))).data
            := by
          show (renderBlock _ ++ renderBlocks _).data = _
          rw [String.data_append]
        rw [hrb]
        simp [List.append_assoc]
      · rw [if_neg hcase]
        have hrec := updateAux_canonical es2 [] (acc ++ g ++ (renderBlock e).data) f tid nb nt
          ch (by decide) hes2 (by simp at hfuel; omega)
        rw [List.nil_append] at hrec
        rw [hrec]
        have hani : (e :: es2).any (fun u => u.id = tid) = es2.any (fun u => u.id = tid) := by
          simp [List.any_cons, hcase]
        have hmapc : (e :: es2).map (fun u =>
              if u.id = tid then (⟨u.id, u.created, u.cms, nt, nb⟩ : CEntry) else u)
            = e :: es2.map (fun u =>
              if u.id = tid then (⟨u.id, u.created, u.cms, nt, nb⟩ : CEntry) else u) := by
          rw [List.map_cons, if_neg hcase]
        rw [hani, hmapc]
        have hrb : (renderBlocks (e :: es2.map (fun u =>
              if u.id = tid then (⟨u.id, u.created, u.cms, nt, nb⟩ : CEntry) else u))).data
            = (renderBlock e).data ++ (renderBlocks (es2.map (fun u =>
              if u.id = tid then (⟨u.id, u.created, u.cms, nt, nb⟩ : CEntry) else u))).data
            := by
          show (renderBlock _ ++ renderBlocks _).data = _
          rw [String.data_append]
        rw [hrb]
        simp [List.append_assoc]

theorem updateEntryInText_canonical (pre : String) (es : List CEntry) (tid nb : String)
    (nt : List String) (hcrp : '\r' ∉ pre.data) (hpre : occurs startLit pre.data = false)
    (hes : ∀ e ∈ es, Clean e) :
    updateEntryInText (renderStore pre es) tid nb nt
      = (es.any (fun e => e.id = tid),
         renderStore pre (es.map (fun e =>
           if e.id = tid then ⟨e.id, e.created, e.cms, nt, nb⟩ else e))) := by
  simp only [updateEntryInText]
  rw [normalizeNewlinesL_fixed (renderStore_no_cr pre es hcrp hes)]
  rw [show (renderStore pre es).data = pre.data ++ (renderBlocks es).data from by
    show (pre ++ renderBlocks es).data = _
    rw [String.data_append]]
  rw [updateAux_canonical es pre.data [] _ tid nb nt false hpre hes (by
    have h2 := renderBlocks_len es
    simp only [List.length_append]
    omega)]
  rw [show (([] : Chars)
        ++ (pre.data ++ (renderBlocks (es.map (fun e =>
          if e.id = tid then (⟨e.id, e.created, e.cms, nt, nb⟩ : CEntry) else e))).data))
      = (renderStore pre (es.map (fun e =>
          if e.id = tid then (⟨e.id, e.created, e.cms, nt, nb⟩ : CEntry) else e))).data from by
    rw [List.nil_append]
    show _ = (pre ++ renderBlocks _).data
    rw [String.data_append]]
  rw [asString_data_eq]
  simp

/-- Projects the body of the entry returned by a successful addEntry. -/
def addedBody (r : Except StoreErr (Entry × String × String)) : String :=
  match r with
  | .ok (e, _, _) => e.body
  | .error _ => ""

/-- A day-file preamble used as a concrete store fixture. -/
def preW : String := "# 2025-01-02\n\n"

/-- A canonical stored entry used as a concrete store fixture. -/
def eW : CEntry := ⟨"w1", "2025-01-01 10:00", 5, ["alpha"], "Old body"⟩

/-- The clock fixture for addEntry. -/
def nowW : Now := ⟨2025, 0, 2, 3, 4, 17⟩

/-- The file-system fixture for addEntry: directory and write succeed and
the day file already holds the empty canonical store. -/
def afsW : AddFS := ⟨"/d", false, true, renderStore preW [], false⟩

/-- C1 counterexample: addEntry stores the fully trimmed body, so a body
with leading whitespace is not preserved modulo a trailing-whitespace
trim only: the input " x" has no trailing whitespace to trim, yet the
stored body is "x". -/
theorem claim_c1_counterexample :
    addedBody (addEntry ⟨"/d", false, true, "", false⟩ ⟨2025, 0, 2, 3, 4, 17⟩ "i1" " x" [])
        = "x"
      ∧ (trimRight " x".data).asString = " x"
      ∧ "x" ≠ " x" := by
  decide

/-- C1 (amended): on a canonical store, addEntry with a body that is
nonempty after trimming appends exactly one block, and decoding the new
file yields the old entries followed by exactly one new entry whose body
is the fully trimmed input body and whose tags are the normalized,
empties-dropped and deduplicated input tags. -/
theorem claim_c1 (pre : String) (es : List CEntry) (afs : AddFS) (now : Now)
    (freshId rawBody : String) (rawTags : List String) (date src : String)
    (hmk : afs.mkdirFails = false) (hw : afs.writeFails = false)
    (hex : afs.todayExists = true) (hct : afs.todayContent = renderStore pre es)
    (hcrp : '\r' ∉ pre.data) (hpre : occurs startLit pre.data = false)
    (hes : ∀ e ∈ es, Clean e)
    (hbne : (trimBoth rawBody.data).asString ≠ "")
    (hnew : Clean ⟨freshId, formatDateTime now, now.epochMs, cleanTagsOf rawTags,
      (trimBoth rawBody.data).asString⟩) :
    addEntry afs now freshId rawBody rawTags
        = .ok ({ id := freshId, date := formatDate now, created := formatDateTime now,
                 createdAtMs := now.epochMs, tags := cleanTagsOf rawTags,
                 body := (trimBoth rawBody.data).asString,
                 sourceFile := afs.dir ++ "/" ++ (formatDate now ++ ".md") },
               formatDate now ++ ".md",
               renderStore pre (es ++ [⟨freshId, formatDateTime now, now.epochMs,
                 cleanTagsOf rawTags, (trimBoth rawBody.data).asString⟩]))
      ∧ parseEntriesFromText (renderStore pre (es ++ [⟨freshId, formatDateTime now,
            now.epochMs, cleanTagsOf rawTags, (trimBoth rawBody.data).asString⟩])) date src
        = es.map (toEntry date src)
            ++ [toEntry date src ⟨freshId, formatDateTime now, now.epochMs,
                cleanTagsOf rawTags, (trimBoth rawBody.data).asString⟩] := by
  constructor
  · rw [renderStore_snoc]
    simp [addEntry, hmk, hw, hex, hct, hbne, cleanTagsOf, renderBlock]
  · have hesx : ∀ u ∈ es ++ [(⟨freshId, formatDateTime now, now.epochMs,
        cleanTagsOf rawTags, (trimBoth rawBody.data).asString⟩ : CEntry)], Clean u := by
      intro u hu
      rcases List.mem_append.mp hu with h2 | h2
      · exact hes u h2
      · rw [List.mem_singleton] at h2
        rw [h2]
        exact hnew
    rw [parseEntriesFromText_canonical pre _ date src hcrp hpre hesx, List.map_append]
    rfl

theorem claim_c1_witness :
    addEntry afsW nowW "n1" " hi " ["#T"]
        = .ok ({ id := "n1", date := formatDate nowW, created := formatDateTime nowW,
                 createdAtMs := nowW.epochMs, tags := cleanTagsOf ["#T"],
                 body := (trimBoth " hi ".data).asString,
                 sourceFile := afsW.dir ++ "/" ++ (formatDate nowW ++ ".md") },
               formatDate nowW ++ ".md",
               renderStore preW ([] ++ [⟨"n1", formatDateTime nowW, nowW.epochMs,
                 cleanTagsOf ["#T"], (trimBoth " hi ".data).asString⟩]))
      ∧ parseEntriesFromText (renderStore preW ([] ++ [⟨"n1", formatDateTime nowW,
            nowW.epochMs, cleanTagsOf ["#T"], (trimBoth " hi ".data).asString⟩]))
            "2025-01-02" "s.md"
        = ([] : List CEntry).map (toEntry "2025-01-02" "s.md")
            ++ [toEntry "2025-01-02" "s.md" ⟨"n1", formatDateTime nowW, nowW.epochMs,
                cleanTagsOf ["#T"], (trimBoth " hi ".data).asString⟩] :=
  claim_c1 preW [] afsW nowW "n1" " hi " ["#T"] "2025-01-02" "s.md" rfl rfl rfl rfl
    (by decide) (by decide) (by decide) (by decide) (by decide)

/-- C2 counterexample: a stored block may carry a metadata line the codec
does not know, here a mood line; update rewrites the whole block from the
known fields only, so that stored non-body, non-tag field does not
round-trip. -/
theorem claim_c2_counterexample :
    (updateEntryInText "<!-- acta:comment\nid: x1\nmood: happy\ncreated: c1\ncreated_ms: 5\ntags: \n-->\nBody\n<!-- /acta:comment -->\n\n"
        "x1" "New" []).1 = true
      ∧ occurs "mood".data "<!-- acta:comment\nid: x1\nmood: happy\ncreated: c1\ncreated_ms: 5\ntags: \n-->\nBody\n<!-- /acta:comment -->\n\n".data
        = true
      ∧ occurs "mood".data ((updateEntryInText "<!-- acta:comment\nid: x1\nmood: happy\ncreated: c1\ncreated_ms: 5\ntags: \n-->\nBody\n<!-- /acta:comment -->\n\n"
        "x1" "New" []).2).data = false := by
  decide

/-- C2 (amended): on a canonical store, update replaces the body and the
tags of every block whose stored id equals the requested id, keeps the
stored id, created and created_ms values in the rewritten block, leaves
every other block byte-identical, and the updated listed entry keeps the
original id, created and createdAtMs while body and tags take the new
values. -/
theorem claim_c2 (pre : String) (es : List CEntry) (tid nb : String) (nt : List String)
    (date src : String)
    (hcrp : '\r' ∉ pre.data) (hpre : occurs startLit pre.data = false)
    (hes : ∀ e ∈ es, Clean e)
    (hrep : ∀ e ∈ es, e.id = tid → Clean ⟨e.id, e.created, e.cms, nt, nb⟩) :
    updateEntryInText (renderStore pre es) tid nb nt
        = (es.any (fun e => e.id = tid),
           renderStore pre (es.map (fun e =>
             if e.id = tid then ⟨e.id, e.created, e.cms, nt, nb⟩ else e)))
      ∧ parseEntriesFromText (renderStore pre (es.map (fun e =>
            if e.id = tid then ⟨e.id, e.created, e.cms, nt, nb⟩ else e))) date src
          = (es.map (fun e =>
              if e.id = tid then (⟨e.id, e.created, e.cms, nt, nb⟩ : CEntry) else e)).map
              (toEntry date src)
      ∧ ∀ e ∈ es, e.id = tid →
          (toEntry date src (⟨e.id, e.created, e.cms, nt, nb⟩ : CEntry)).id
              = (toEntry date src e).id
            ∧ (toEntry date src (⟨e.id, e.created, e.cms, nt, nb⟩ : CEntry)).created
              = (toEntry date src e).created
            ∧ (toEntry date src (⟨e.id, e.created, e.cms, nt, nb⟩ : CEntry)).createdAtMs
              = (toEntry date src e).createdAtMs
            ∧ (toEntry date src (⟨e.id, e.created, e.cms, nt, nb⟩ : CEntry)).body = nb
            ∧ (toEntry date src (⟨e.id, e.created, e.cms, nt, nb⟩ : CEntry)).tags = nt := by
  refine ⟨updateEntryInText_canonical pre es tid nb nt hcrp hpre hes, ?_, ?_⟩
  · apply parseEntriesFromText_canonical pre _ date src hcrp hpre
    intro u hu
    rcases List.mem_map.mp hu with ⟨e, he, hmap⟩
    by_cases hcase : e.id = tid
    · rw [← hmap, if_pos hcase]
      exact hrep e he hcase
    · rw [← hmap, if_neg hcase]
      exact hes e he
  · intro e _ _
    exact ⟨rfl, rfl, rfl, rfl, rfl⟩

theorem claim_c2_witness :
    updateEntryInText (renderStore preW [eW]) "w1" "New body" ["beta"]
        = ([eW].any (fun e => e.id = "w1"),
           renderStore preW ([eW].map (fun e =>
             if e.id = "w1" then ⟨e.id, e.created, e.cms, ["beta"], "New body"⟩ else e)))
      ∧ parseEntriesFromText (renderStore preW ([eW].map (fun e =>
            if e.id = "w1" then ⟨e.id, e.created, e.cms, ["beta"], "New body"⟩ else e)))
            "d" "s"
          = ([eW].map (fun e =>
              if e.id = "w1" then (⟨e.id, e.created, e.cms, ["beta"], "New body"⟩ : CEntry)
              else e)).map (toEntry "d" "s")
      ∧ ∀ e ∈ [eW], e.id = "w1" →
          (toEntry "d" "s" (⟨e.id, e.created, e.cms, ["beta"], "New body"⟩ : CEntry)).id
              = (toEntry "d" "s" e).id
            ∧ (toEntry "d" "s" (⟨e.id, e.created, e.cms, ["beta"], "New body"⟩ : CEntry)).created
              = (toEntry "d" "s" e).created
            ∧ (toEntry "d" "s"
                (⟨e.id, e.created, e.cms, ["beta"], "New body"⟩ : CEntry)).createdAtMs
              = (toEntry "d" "s" e).createdAtMs
            ∧ (toEntry "d" "s" (⟨e.id, e.created, e.cms, ["beta"], "New body"⟩ : CEntry)).body
              = "New body"
            ∧ (toEntry "d" "s" (⟨e.id, e.created, e.cms, ["beta"], "New body"⟩ : CEntry)).tags
              = ["beta"] :=
  claim_c2 preW [eW] "w1" "New body" ["beta"] "d" "s" (by decide) (by decide) (by decide)
    (by decide)

/-- C4 counterexample: deleting one entry from a day file that uses CRLF
line endings rewrites the whole file with normalized newlines, so the
surviving entry is still listed but its stored bytes change. -/
theorem claim_c4_counterexample :
    (removeEntryFromText "<!-- acta:comment\nid: a\n-->\nA\n<!-- /acta:comment -->\n\n<!-- acta:comment\r\nid: b\r\n-->\r\nB1\r\nB2\r\n<!-- /acta:comment -->\r\n\r\n"
        "a").1 = true
      ∧ occurs "B1\r\nB2".data "<!-- acta:comment\nid: a\n-->\nA\n<!-- /acta:comment -->\n\n<!-- acta:comment\r\nid: b\r\n-->\r\nB1\r\nB2\r\n<!-- /acta:comment -->\r\n\r\n".data
        = true
      ∧ occurs "B1\r\nB2".data ((removeEntryFromText "<!-- acta:comment\nid: a\n-->\nA\n<!-- /acta:comment -->\n\n<!-- acta:comment\r\nid: b\r\n-->\r\nB1\r\nB2\r\n<!-- /acta:comment -->\r\n\r\n"
        "a").2).data = false
      ∧ (parseEntriesFromText ((removeEntryFromText "<!-- acta:comment\nid: a\n-->\nA\n<!-- /acta:comment -->\n\n<!-- acta:comment\r\nid: b\r\n-->\r\nB1\r\nB2\r\n<!-- /acta:comment -->\r\n\r\n"
        "a").2) "d" "s").map Entry.id = ["b"] := by
  decide

/-- C4 (amended): on a canonical store, remove deletes exactly the blocks
whose stored id equals the requested id, the rewritten file is the store
of the remaining entries with every kept block byte-identical, and the
decoded list of the rewritten file no longer contains the id. -/
theorem claim_c4 (pre : String) (es : List CEntry) (tid : String) (date src : String)
    (hcrp : '\r' ∉ pre.data) (hpre : occurs startLit pre.data = false)
    (hes : ∀ e ∈ es, Clean e) :
    removeEntryFromText (renderStore pre es) tid
        = (es.any (fun e => e.id = tid),
           renderStore pre (es.filter (fun e => e.id ≠ tid)))
      ∧ parseEntriesFromText (renderStore pre (es.filter (fun e => e.id ≠ tid))) date src
          = (es.filter (fun e => e.id ≠ tid)).map (toEntry date src)
      ∧ ∀ en ∈ (es.filter (fun e => e.id ≠ tid)).map (toEntry date src), en.id ≠ tid := by
  refine ⟨removeEntryFromText_canonical pre es tid hcrp hpre hes, ?_, ?_⟩
  · apply parseEntriesFromText_canonical pre _ date src hcrp hpre
    intro u hu
    exact hes u (List.mem_of_mem_filter hu)
  · intro en hen
    rcases List.mem_map.mp hen with ⟨u, hu, hmap⟩
    rw [← hmap]
    show u.id ≠ tid
    have h2 := (List.mem_filter.mp hu).2
    simpa using h2

theorem claim_c4_witness :
    removeEntryFromText (renderStore preW [eW]) "w1"
        = ([eW].any (fun e => e.id = "w1"),
           renderStore preW ([eW].filter (fun e => e.id ≠ "w1")))
      ∧ parseEntriesFromText (renderStore preW ([eW].filter (fun e => e.id ≠ "w1"))) "d" "s"
          = ([eW].filter (fun e => e.id ≠ "w1")).map (toEntry "d" "s")
      ∧ ∀ en ∈ ([eW].filter (fun e => e.id ≠ "w1")).map (toEntry "d" "s"), en.id ≠ "w1" :=
  claim_c4 preW [eW] "w1" "d" "s" (by decide) (by decide) (by decide)

end Acta
